import Mathlib

/-
Verification development for the exam-timetabling ABC repository.

Shallow embedding of the three source files:
  * `app.py` — the main engine: cost model (`calculate_cost`, `fitness`),
    solution generator (`generate_solution`), neighborhood operator
    (`generate_neighbor`) and the colony search loop (`artificial_bee_colony`).
  * `fitness.py` — the standalone fitness variant (`FitnessPy` namespace).
  * `abc_algorithm.py` — the older variant's cost/fitness pair
    (`AbcAlg` namespace).

Modelling conventions:
  * Python dicts of exam → room are association lists (`Schedule`) kept in
    insertion order, matching Python's ordered dicts; `dictSet` is `d[k] = v`.
  * Python floats are modelled as exact rationals `ℚ`.
  * A Python statement that can raise (`random.choice` on an empty list,
    division by zero) is embedded in `Option`: `none` is an exception.
  * The ambient random generator is an explicit oracle: each call site reads
    the stream at the current position and advances it.  `float("inf")` is
    `⊤ : WithTop ℚ`.
  * Wall-clock time (`time.time()` / the returned `elapsed`) is not modelled.
-/

namespace ExamABC

/-! ## Basic data -/

abbrev ExamId := ℕ
abbrev RoomId := ℕ

/-- The module-level lookup data that `app.py` builds from the CSV files:
`exam_ids`, `room_ids`, `num_students`, `exam_day`, `exam_time`, `exam_type`,
`room_capacity`, `room_type`. -/
structure Ctx where
  exam_ids : List ExamId
  room_ids : List RoomId
  num_students : ExamId → ℤ
  exam_day : ExamId → ℕ
  exam_time : ExamId → ℕ
  exam_type : ExamId → String
  room_capacity : RoomId → ℤ
  room_type : RoomId → String

/-- `NUM_EXAMS = len(exam_ids)`. -/
def Ctx.numExams (ctx : Ctx) : ℕ := ctx.exam_ids.length

/-- A candidate solution: the Python dict `{exam: room}`, in insertion order. -/
abbrev Schedule := List (ExamId × RoomId)

/-- The key list of a schedule (the dict's keys, in order). -/
def keysOf (d : Schedule) : List ExamId := d.map Prod.fst

/-- Python dict assignment `d[k] = v`: overwrite in place if the key exists
(keeping its position), else append the new binding. -/
def dictSet (d : Schedule) (k : ExamId) (v : RoomId) : Schedule :=
  if k ∈ keysOf d then d.map (fun p => if p.1 = k then (k, v) else p)
  else d ++ [(k, v)]

/-- `random.choice(l)` driven by an oracle draw `r`: pick index `r % len(l)`;
on an empty list this is `none` (Python raises `IndexError`). -/
def pyChoice {α : Type*} (l : List α) (r : ℕ) : Option α :=
  l.get? (r % l.length)

/-- A Python `for` loop whose body may raise, threading the loop state. -/
def foldOpt {σ α : Type*} (f : σ → α → Option σ) : σ → List α → Option σ
  | s, [] => some s
  | s, a :: l => (f s a).bind fun s' => foldOpt f s' l

/-! ## Cost model (`app.py`, `calculate_cost`) -/

/-- The running accumulators of `calculate_cost`:
`capacity_violations`, `timeslot_conflicts`, `type_violations`,
`wasted_capacity`, `used_slots`. -/
structure CostAcc where
  cap : ℕ
  ts : ℕ
  ty : ℕ
  wasted : ℚ
  used : List (RoomId × ℕ × ℕ)
deriving DecidableEq

/-- The `---- Capacity + Safety Margin (Hard) ----` block.  In the two
branches with `empty_seats ≥ 0` Python computes `empty_seats / capacity`,
which raises `ZeroDivisionError` when `capacity == 0`. -/
def capStep (ctx : Ctx) (safety_margin : ℤ) (acc : CostAcc) (er : ExamId × RoomId) :
    Option CostAcc :=
  if ctx.room_capacity er.2 - ctx.num_students er.1 < 0 then
    some ⟨acc.cap + 1, acc.ts, acc.ty, acc.wasted, acc.used⟩
  else if ctx.room_capacity er.2 = 0 then none
  else if ctx.room_capacity er.2 - ctx.num_students er.1 < safety_margin then
    some ⟨acc.cap + 1, acc.ts, acc.ty,
      acc.wasted + ((ctx.room_capacity er.2 - ctx.num_students er.1 : ℤ) : ℚ) /
        (ctx.room_capacity er.2 : ℚ), acc.used⟩
  else
    some ⟨acc.cap, acc.ts, acc.ty,
      acc.wasted + ((ctx.room_capacity er.2 - ctx.num_students er.1 : ℤ) : ℚ) /
        (ctx.room_capacity er.2 : ℚ), acc.used⟩

/-- The `---- Room-Type Compatibility (Hard) ----` block. -/
def typeStep (ctx : Ctx) (acc : CostAcc) (er : ExamId × RoomId) : CostAcc :=
  let a1 : CostAcc :=
    if ctx.exam_type er.1 = "practical" ∧ ctx.room_type er.2 ≠ "lab"
    then ⟨acc.cap, acc.ts, acc.ty + 1, acc.wasted, acc.used⟩ else acc
  if ctx.exam_type er.1 = "theory" ∧ ctx.room_type er.2 = "lab"
  then ⟨a1.cap, a1.ts, a1.ty + 1, a1.wasted, a1.used⟩ else a1

/-- The slot key `(room, exam_day[exam], exam_time[exam])`. -/
def slotKey (ctx : Ctx) (er : ExamId × RoomId) : RoomId × ℕ × ℕ :=
  (er.2, ctx.exam_day er.1, ctx.exam_time er.1)

/-- The `---- Room–Timeslot Conflict (Hard) ----` block. -/
def slotStep (ctx : Ctx) (acc : CostAcc) (er : ExamId × RoomId) : CostAcc :=
  if slotKey ctx er ∈ acc.used then ⟨acc.cap, acc.ts + 1, acc.ty, acc.wasted, acc.used⟩
  else ⟨acc.cap, acc.ts, acc.ty, acc.wasted, slotKey ctx er :: acc.used⟩

/-- One iteration of the `for exam, room in schedule.items()` loop. -/
def costStep (ctx : Ctx) (safety_margin : ℤ) (acc : CostAcc) (er : ExamId × RoomId) :
    Option CostAcc :=
  (capStep ctx safety_margin acc er).map fun a => slotStep ctx (typeStep ctx a er) er

/-- The whole loop of `calculate_cost`. -/
def costFold (ctx : Ctx) (safety_margin : ℤ) (schedule : Schedule) : Option CostAcc :=
  foldOpt (costStep ctx safety_margin) ⟨0, 0, 0, 0, []⟩ schedule

/-- The 5-tuple returned by `calculate_cost`. -/
structure CostBreakdown where
  total : ℚ
  capacity_violations : ℕ
  timeslot_conflicts : ℕ
  type_violations : ℕ
  wasted_capacity : ℚ
deriving DecidableEq

/-- `calculate_cost(schedule, alpha, beta, gamma, delta, safety_margin)`. -/
def calculate_cost (ctx : Ctx) (schedule : Schedule)
    (alpha beta gamma delta : ℚ) (safety_margin : ℤ) : Option CostBreakdown :=
  (costFold ctx safety_margin schedule).map fun a =>
    ⟨alpha * a.cap + gamma * a.ts + delta * a.ty + beta * a.wasted,
     a.cap, a.ts, a.ty, a.wasted⟩

/-- `fitness(schedule, ...) = 1 / (1 + cost)`; the division would raise if
`1 + cost` were zero. -/
def fitness (ctx : Ctx) (schedule : Schedule)
    (alpha beta gamma delta : ℚ) (safety_margin : ℤ) : Option ℚ :=
  (calculate_cost ctx schedule alpha beta gamma delta safety_margin).bind fun cb =>
    if 1 + cb.total = 0 then none else some (1 / (1 + cb.total))

/-! ## Random oracle -/

/-- An explicit source for the ambient `random` module: `nat k` feeds a
`random.choice` at call position `k`, `coin k` is the outcome of
`random.random() < 0.7`, and `unif k` the value of a `random.uniform` draw. -/
structure Oracle where
  nat : ℕ → ℕ
  coin : ℕ → Bool
  unif : ℕ → ℚ

/-! ## Solution generator and neighborhood operator (`app.py`) -/

/-- The dict comprehension `{exam: random.choice(room_ids) for exam in exam_ids}`,
inserting one binding per exam in list order, threading the oracle position. -/
def genSolAux (room_ids : List RoomId) (o : Oracle) :
    List ExamId → Schedule → ℕ → Option (Schedule × ℕ)
  | [], d, k => some (d, k)
  | e :: es, d, k =>
    (pyChoice room_ids (o.nat k)).bind fun r =>
      genSolAux room_ids o es (dictSet d e r) (k + 1)

/-- `generate_solution()`. -/
def generate_solution (ctx : Ctx) (o : Oracle) (k : ℕ) : Option (Schedule × ℕ) :=
  genSolAux ctx.room_ids o ctx.exam_ids [] k

/-- The `compatible_rooms` list comprehension inside `generate_neighbor`. -/
def compatible_rooms (ctx : Ctx) (exam : ExamId) : List RoomId :=
  ctx.room_ids.filter fun r =>
    decide ((ctx.exam_type exam = "practical" ∧ ctx.room_type r = "lab") ∨
            (ctx.exam_type exam = "theory" ∧ ctx.room_type r ≠ "lab"))

/-- `generate_neighbor(solution)`: copy the dict, pick a random exam, and
rebind it — to a random compatible room with probability 0.7 when any exists,
else to a random room.  (When `compatible_rooms` is empty Python short-circuits
and never draws `random.random()`, hence the position bookkeeping below.) -/
def generate_neighbor (ctx : Ctx) (o : Oracle) (sol : Schedule) (k : ℕ) :
    Option (Schedule × ℕ) :=
  (pyChoice ctx.exam_ids (o.nat k)).bind fun exam =>
    if compatible_rooms ctx exam = [] then
      (pyChoice ctx.room_ids (o.nat (k + 1))).map fun room =>
        (dictSet sol exam room, k + 2)
    else if o.coin (k + 1) then
      (pyChoice (compatible_rooms ctx exam) (o.nat (k + 2))).map fun room =>
        (dictSet sol exam room, k + 3)
    else
      (pyChoice ctx.room_ids (o.nat (k + 2))).map fun room =>
        (dictSet sol exam room, k + 3)

/-! ## Colony search engine (`app.py`, `artificial_bee_colony`) -/

/-- The loop state of `artificial_bee_colony`: `food_sources`, `trials`,
`best_solution` (initially `None`), `best_cost` (initially `float("inf")`,
modelled `⊤`), `convergence`, and the oracle position `k`. -/
structure ABCState where
  food : List Schedule
  trials : List ℕ
  best_solution : Option Schedule
  best_cost : WithTop ℚ
  convergence : List (WithTop ℚ)
  k : ℕ
deriving DecidableEq

/-- One accept/reject step on member `i`: generate a neighbor, keep it iff its
fitness strictly exceeds the current member's, resetting or bumping the trial
counter.  Shared verbatim between the employed-bee loop (lines 156–162) and
the onlooker-bee body (lines 177–183). -/
def employedStep (ctx : Ctx) (o : Oracle) (alpha beta gamma delta : ℚ)
    (safety_margin : ℤ) (st : ABCState) (i : ℕ) : Option ABCState :=
  (st.food.get? i).bind fun sol =>
  (generate_neighbor ctx o sol st.k).bind fun ck =>
  (fitness ctx ck.1 alpha beta gamma delta safety_margin).bind fun fc =>
  (fitness ctx sol alpha beta gamma delta safety_margin).bind fun fs =>
  if fc > fs then
    some { st with food := st.food.set i ck.1, trials := st.trials.set i 0, k := ck.2 }
  else
    (st.trials.get? i).map fun t =>
      { st with trials := st.trials.set i (t + 1), k := ck.2 }

/-- `---------- Employed Bees ----------`: the `for i in range(colony_size)` loop. -/
def employedPhase (ctx : Ctx) (o : Oracle) (alpha beta gamma delta : ℚ)
    (safety_margin : ℤ) (colony_size : ℕ) (st : ABCState) : Option ABCState :=
  foldOpt (employedStep ctx o alpha beta gamma delta safety_margin) st
    (List.range colony_size)

/-- The `fitness_values` list computed at the top of the onlooker phase, one
fitness per food source in order. -/
def fitnessValues (ctx : Ctx) (alpha beta gamma delta : ℚ) (safety_margin : ℤ) :
    List Schedule → Option (List ℚ)
  | [] => some []
  | sol :: rest =>
    (fitness ctx sol alpha beta gamma delta safety_margin).bind fun f =>
      (fitnessValues ctx alpha beta gamma delta safety_margin rest).map fun fs =>
        f :: fs

/-- The roulette scan `for i, fit in enumerate(fitness_values): acc += fit;
if acc >= r: ...; break` — the first index whose cumulative sum reaches `r`,
or `none` when the loop falls through without breaking. -/
def rouletteIndex (fvals : List ℚ) (r acc : ℚ) (i : ℕ) : Option ℕ :=
  match fvals with
  | [] => none
  | f :: rest => if acc + f ≥ r then some i else rouletteIndex rest r (acc + f) (i + 1)

/-- One onlooker trial: draw `r = random.uniform(0, total_fitness)` (one oracle
position), select a member by roulette over the phase-initial `fitness_values`,
and apply the shared accept/reject step to it. -/
def onlookerTrial (ctx : Ctx) (o : Oracle) (alpha beta gamma delta : ℚ)
    (safety_margin : ℤ) (fvals : List ℚ) (st : ABCState) : Option ABCState :=
  let r := o.unif st.k
  let st' := { st with k := st.k + 1 }
  match rouletteIndex fvals r 0 0 with
  | none => some st'
  | some i => employedStep ctx o alpha beta gamma delta safety_margin st' i

/-- `---------- Onlooker Bees ----------`: compute `fitness_values` once, then
run `colony_size` roulette trials against those (possibly stale) values. -/
def onlookerPhase (ctx : Ctx) (o : Oracle) (alpha beta gamma delta : ℚ)
    (safety_margin : ℤ) (colony_size : ℕ) (st : ABCState) : Option ABCState :=
  (fitnessValues ctx alpha beta gamma delta safety_margin st.food).bind fun fvals =>
    foldOpt (fun s _ => onlookerTrial ctx o alpha beta gamma delta safety_margin fvals s)
      st (List.range colony_size)

/-- One scout check on member `i`: if `trials[i] >= scout_limit`, regenerate it
from scratch and reset the counter. -/
def scoutStep (ctx : Ctx) (o : Oracle) (scout_limit : ℕ) (st : ABCState) (i : ℕ) :
    Option ABCState :=
  (st.trials.get? i).bind fun t =>
    if t ≥ scout_limit then
      (generate_solution ctx o st.k).map fun sk =>
        { st with food := st.food.set i sk.1, trials := st.trials.set i 0, k := sk.2 }
    else some st

/-- `---------- Scout Bees ----------`. -/
def scoutPhase (ctx : Ctx) (o : Oracle) (scout_limit : ℕ) (colony_size : ℕ)
    (st : ABCState) : Option ABCState :=
  foldOpt (scoutStep ctx o scout_limit) st (List.range colony_size)

/-- One step of `---------- Best Solution ----------`: recompute the cost of a
member and replace the record iff strictly lower. -/
def bestStep (ctx : Ctx) (alpha beta gamma delta : ℚ) (safety_margin : ℤ)
    (st : ABCState) (sol : Schedule) : Option ABCState :=
  (calculate_cost ctx sol alpha beta gamma delta safety_margin).map fun cb =>
    if (cb.total : WithTop ℚ) < st.best_cost then
      { st with best_cost := (cb.total : WithTop ℚ), best_solution := some sol }
    else st

/-- The `for sol in food_sources` best-update loop. -/
def bestUpdate (ctx : Ctx) (alpha beta gamma delta : ℚ) (safety_margin : ℤ)
    (st : ABCState) : Option ABCState :=
  foldOpt (bestStep ctx alpha beta gamma delta safety_margin) st st.food

/-- `convergence.append(best_cost / NUM_EXAMS)`; with no exams this divides by
zero and raises (`⊤ / n` is Python's `inf / n = inf`). -/
def recordConvergence (ctx : Ctx) (st : ABCState) : Option ABCState :=
  if ctx.numExams = 0 then none
  else some { st with
    convergence := st.convergence ++
      [WithTop.map (fun c => c / (ctx.numExams : ℚ)) st.best_cost] }

/-- One full cycle of the `for cycle in range(max_cycles)` loop. -/
def runCycle (ctx : Ctx) (o : Oracle) (alpha beta gamma delta : ℚ)
    (safety_margin : ℤ) (scout_limit colony_size : ℕ) (st : ABCState) :
    Option ABCState :=
  (employedPhase ctx o alpha beta gamma delta safety_margin colony_size st).bind fun st1 =>
  (onlookerPhase ctx o alpha beta gamma delta safety_margin colony_size st1).bind fun st2 =>
  (scoutPhase ctx o scout_limit colony_size st2).bind fun st3 =>
  (bestUpdate ctx alpha beta gamma delta safety_margin st3).bind fun st4 =>
  recordConvergence ctx st4

/-- Iterating the cycle `max_cycles` times. -/
def runCycles (ctx : Ctx) (o : Oracle) (alpha beta gamma delta : ℚ)
    (safety_margin : ℤ) (scout_limit colony_size : ℕ) :
    ℕ → ABCState → Option ABCState
  | 0, st => some st
  | c + 1, st =>
    (runCycle ctx o alpha beta gamma delta safety_margin scout_limit colony_size st).bind
      (runCycles ctx o alpha beta gamma delta safety_margin scout_limit colony_size c)

/-- `food_sources = [generate_solution() for _ in range(colony_size)]`. -/
def initFood (ctx : Ctx) (o : Oracle) : ℕ → ℕ → Option (List Schedule × ℕ)
  | 0, k => some ([], k)
  | n + 1, k =>
    (generate_solution ctx o k).bind fun sk =>
      (initFood ctx o n sk.2).map fun rest => (sk.1 :: rest.1, rest.2)

/-- `artificial_bee_colony(colony_size, max_cycles, scout_limit, alpha, beta,
gamma, delta, safety_margin)`, returning `(best_solution, best_cost,
convergence)`; the `elapsed` wall time is not modelled. -/
def artificial_bee_colony (ctx : Ctx) (o : Oracle)
    (colony_size max_cycles scout_limit : ℕ)
    (alpha beta gamma delta : ℚ) (safety_margin : ℤ) :
    Option (Option Schedule × WithTop ℚ × List (WithTop ℚ)) :=
  (initFood ctx o colony_size 0).bind fun fk =>
    (runCycles ctx o alpha beta gamma delta safety_margin scout_limit colony_size
        max_cycles
        ⟨fk.1, List.replicate colony_size 0, none, ⊤, [], fk.2⟩).map fun st =>
      (st.best_solution, st.best_cost, st.convergence)

/-! ## The `fitness.py` variant -/

/-- A schedule entry as both older variants see it: the
`(num_students, capacity)` fields of one record. -/
abbrev SRec := ℤ × ℤ

namespace FitnessPy

/-- The accumulator loop of `fitness.py`'s `calculate_fitness`:
`if capacity < students: capacity_violation += students - capacity
else: wasted_capacity += capacity - students`. -/
def fitAcc : List SRec → ℤ × ℤ → ℤ × ℤ
  | [], a => a
  | s :: rest, (viol, wasted) =>
    if s.2 < s.1 then fitAcc rest (viol + (s.1 - s.2), wasted)
    else fitAcc rest (viol, wasted + (s.2 - s.1))

/-- `calculate_fitness(schedule, alpha=50, beta=5) = 1 / (1 + total_cost)` with
`total_cost = alpha * capacity_violation + beta * wasted_capacity`; the division
would raise if `1 + total_cost` were zero. -/
def calculate_fitness (schedule : List SRec) (alpha : ℚ := 50) (beta : ℚ := 5) :
    Option ℚ :=
  if 1 + (alpha * ((fitAcc schedule (0, 0)).1 : ℚ) +
      beta * ((fitAcc schedule (0, 0)).2 : ℚ)) = 0 then none
  else some (1 / (1 + (alpha * ((fitAcc schedule (0, 0)).1 : ℚ) +
    beta * ((fitAcc schedule (0, 0)).2 : ℚ))))

end FitnessPy

/-! ## The `abc_algorithm.py` variant (its `calculate_cost`/`calculate_fitness`) -/

namespace AbcAlg

/-- The accumulator loop of `abc_algorithm.py`'s `calculate_cost`:
`if num_students > capacity: capacity_violation += num_students - capacity
else: wasted_capacity += capacity - num_students`. -/
def costAcc : List SRec → ℤ × ℤ → ℤ × ℤ
  | [], a => a
  | s :: rest, (viol, wasted) =>
    if s.1 > s.2 then costAcc rest (viol + (s.1 - s.2), wasted)
    else costAcc rest (viol, wasted + (s.2 - s.1))

/-- `calculate_cost(schedule)` with its hard-coded `alpha = 50`, `beta = 5`. -/
def calculate_cost (schedule : List SRec) : ℤ :=
  50 * (costAcc schedule (0, 0)).1 + 5 * (costAcc schedule (0, 0)).2

/-- `calculate_fitness(schedule)` returning `(fitness, cost)`; the division
would raise if `1 + cost` were zero. -/
def calculate_fitness (schedule : List SRec) : Option (ℚ × ℤ) :=
  if 1 + (calculate_cost schedule : ℚ) = 0 then none
  else some (1 / (1 + (calculate_cost schedule : ℚ)), calculate_cost schedule)

end AbcAlg

/-! ## Reference quantities for the claims -/

/-- Sum over the schedule of the capacity-overflow magnitudes
`max (students - capacity) 0`. -/
def overflowSum (schedule : List SRec) : ℤ :=
  (schedule.map fun s => max (s.1 - s.2) 0).sum

/-- Sum over the schedule of the surplus seats `max (capacity - students) 0`. -/
def surplusSum (schedule : List SRec) : ℤ :=
  (schedule.map fun s => max (s.2 - s.1) 0).sum

/-- The slot keys of a schedule, in scan order. -/
def slotKeys (ctx : Ctx) (schedule : Schedule) : List (RoomId × ℕ × ℕ) :=
  schedule.map (slotKey ctx)

/-- Python dict lookup `d[e]` as an option: the value at the first matching
key. -/
def dictLookup (d : Schedule) (e : ExamId) : Option RoomId :=
  match d with
  | [] => none
  | p :: ds => if p.1 = e then some p.2 else dictLookup ds e

/-- The exams whose assigned room differs between two schedules (compared as
dict lookups over the first schedule's keys). -/
def reassignedExams (s s' : Schedule) : List ExamId :=
  (keysOf s).filter fun e => dictLookup s e ≠ dictLookup s' e

/-- Reference count of duplicate occurrences relative to an already-seen set
`u`: the first occurrence of a key not in `u` is free, every later occurrence
counts one.  Mirrors how `calculate_cost` scans `used_slots`. -/
def dupCount {κ : Type*} [DecidableEq κ] (u : List κ) : List κ → ℕ
  | [] => 0
  | k :: ks => if k ∈ u then dupCount u ks + 1 else dupCount (k :: u) ks

/-! ## Concrete data for evaluating the engine -/

/-- One theory exam of 10 students, one 20-seat lecture room. -/
def ctx1 : Ctx :=
  ⟨[0], [0], fun _ => 10, fun _ => 0, fun _ => 0, fun _ => "theory",
   fun _ => 20, fun _ => "lecture"⟩

/-- One exam with 0 students, one room of capacity 0 (both values the data
model admits: counts and capacities are non-negative integers). -/
def ctx3 : Ctx :=
  ⟨[0], [0], fun _ => 0, fun _ => 0, fun _ => 0, fun _ => "theory",
   fun _ => 0, fun _ => "lecture"⟩

/-- A non-empty exam list with an empty room list. -/
def ctxE : Ctx :=
  ⟨[0], [], fun _ => 10, fun _ => 0, fun _ => 0, fun _ => "theory",
   fun _ => 20, fun _ => "lecture"⟩

/-- A fixed random source: every `choice` draw picks index 0, every coin is
`false`, every uniform draw is 0. -/
def oracle0 : Oracle := ⟨fun _ => 0, fun _ => false, fun _ => 0⟩

/-- A one-member population state for `ctx1` before a cycle. -/
def stA : ABCState := ⟨[[(0, 0)]], [0], none, ⊤, [], 0⟩

/-- The state after one cycle of the engine on `stA` (checked by `rfl` below). -/
def stA' : ABCState :=
  ⟨[[(0, 0)]], [2], some [(0, 0)], ((5 : ℚ) / 2 : ℚ), [((5 : ℚ) / 2 : ℚ)], 7⟩

/-- A one-member state whose only trial counter is above the scout limit 5. -/
def stB : ABCState := ⟨[[(0, 0)]], [7], none, ⊤, [], 0⟩

/-! # Lemmas -/

/-! ## Generic facts about `foldOpt` -/

theorem foldOpt_invariant {σ α : Type*} {f : σ → α → Option σ} (P : σ → Prop)
    (hf : ∀ s a s', f s a = some s' → P s → P s') :
    ∀ (l : List α) (s s' : σ), foldOpt f s l = some s' → P s → P s' := by
  intro l
  induction l with
  | nil =>
    intro s s' h hP
    simp only [foldOpt, Option.some.injEq] at h
    rwa [← h]
  | cons a l ih =>
    intro s s' h hP
    simp only [foldOpt, Option.bind_eq_some] at h
    obtain ⟨s1, hs1, hrest⟩ := h
    exact ih s1 s' hrest (hf s a s1 hs1 hP)

theorem foldOpt_preserve {σ α β : Type*} {f : σ → α → Option σ} (g : σ → β)
    (hf : ∀ s a s', f s a = some s' → g s' = g s)
    (l : List α) (s s' : σ) (h : foldOpt f s l = some s') : g s' = g s :=
  foldOpt_invariant (fun t => g t = g s)
    (fun t a t' ht htg => (hf t a t' ht).trans htg) l s s' h rfl

theorem foldOpt_total_mem {σ α : Type*} {f : σ → α → Option σ} (P : σ → Prop) :
    ∀ (l : List α) (s : σ),
      (∀ s' a, a ∈ l → P s' → ∃ s'', f s' a = some s'' ∧ P s'') →
      P s → ∃ s', foldOpt f s l = some s' ∧ P s' := by
  intro l
  induction l with
  | nil => intro s _ hP; exact ⟨s, rfl, hP⟩
  | cons a l ih =>
    intro s hf hP
    obtain ⟨s1, h1, hP1⟩ := hf s a (List.mem_cons_self a l) hP
    obtain ⟨s', h', hP'⟩ := ih s1 (fun t b hb => hf t b (List.mem_cons_of_mem a hb)) hP1
    refine ⟨s', ?_, hP'⟩
    simp only [foldOpt, h1, Option.some_bind]
    exact h'

/-! ## Duplicate counting -/

theorem dupCount_add_card {κ : Type*} [DecidableEq κ] :
    ∀ (l u : List κ),
      dupCount u l + (u ++ l).toFinset.card = l.length + u.toFinset.card := by
  intro l
  induction l with
  | nil => intro u; simp [dupCount]
  | cons k ks ih =>
    intro u
    by_cases hk : k ∈ u
    · have hset : (u ++ k :: ks).toFinset = (u ++ ks).toFinset := by
        simp only [List.toFinset_append, List.toFinset_cons, Finset.union_insert]
        rw [Finset.insert_eq_self.2]
        exact Finset.mem_union_left _ (List.mem_toFinset.2 hk)
      have := ih u
      simp only [dupCount, if_pos hk, hset, List.length_cons]
      omega
    · have hset : ((k :: u) ++ ks).toFinset = (u ++ k :: ks).toFinset := by
        simp only [List.cons_append, List.toFinset_cons, List.toFinset_append,
          Finset.union_insert, Finset.insert_union]
      have hcard : (k :: u).toFinset.card = u.toFinset.card + 1 := by
        rw [List.toFinset_cons, Finset.card_insert_of_not_mem
          (fun hmem => hk (List.mem_toFinset.1 hmem))]
      have := ih (k :: u)
      simp only [dupCount, if_neg hk, List.length_cons]
      rw [← hset]
      omega

/-! ## Cost-model step lemmas -/

theorem capStep_some_fields {ctx : Ctx} {m : ℤ} {acc a : CostAcc}
    {er : ExamId × RoomId} (h : capStep ctx m acc er = some a) :
    a.ts = acc.ts ∧ a.ty = acc.ty ∧ a.used = acc.used := by
  unfold capStep at h
  split at h
  · cases Option.some.inj h
    exact ⟨rfl, rfl, rfl⟩
  · split at h
    · exact absurd h (by simp)
    · split at h <;>
      · cases Option.some.inj h
        exact ⟨rfl, rfl, rfl⟩

theorem capStep_wasted_nonneg {ctx : Ctx} {m : ℤ} {acc a : CostAcc}
    {er : ExamId × RoomId} (h : capStep ctx m acc er = some a)
    (hcap : 0 ≤ ctx.room_capacity er.2) (hw : 0 ≤ acc.wasted) : 0 ≤ a.wasted := by
  unfold capStep at h
  split at h
  · cases Option.some.inj h
    exact hw
  · rename_i hes
    split at h
    · exact absurd h (by simp)
    · rename_i hc0
      have hpos : (0 : ℚ) < (ctx.room_capacity er.2 : ℚ) := by
        exact_mod_cast lt_of_le_of_ne hcap (Ne.symm hc0)
      have hesn : (0 : ℚ) ≤ ((ctx.room_capacity er.2 - ctx.num_students er.1 : ℤ) : ℚ) := by
        exact_mod_cast not_lt.1 hes
      have hdiv : (0 : ℚ) ≤
          ((ctx.room_capacity er.2 - ctx.num_students er.1 : ℤ) : ℚ) /
            (ctx.room_capacity er.2 : ℚ) :=
        div_nonneg hesn hpos.le
      split at h <;>
      · cases Option.some.inj h
        exact add_nonneg hw hdiv

theorem typeStep_fields (ctx : Ctx) (acc : CostAcc) (er : ExamId × RoomId) :
    (typeStep ctx acc er).ts = acc.ts ∧ (typeStep ctx acc er).wasted = acc.wasted ∧
    (typeStep ctx acc er).used = acc.used ∧ (typeStep ctx acc er).cap = acc.cap := by
  unfold typeStep
  split <;> split <;> simp

theorem slotStep_fields (ctx : Ctx) (acc : CostAcc) (er : ExamId × RoomId) :
    (slotStep ctx acc er).wasted = acc.wasted ∧ (slotStep ctx acc er).cap = acc.cap ∧
    (slotStep ctx acc er).ty = acc.ty := by
  unfold slotStep
  split <;> simp

theorem slotStep_ts (ctx : Ctx) (acc : CostAcc) (er : ExamId × RoomId) :
    (slotKey ctx er ∈ acc.used →
      (slotStep ctx acc er).ts = acc.ts + 1 ∧ (slotStep ctx acc er).used = acc.used) ∧
    (slotKey ctx er ∉ acc.used →
      (slotStep ctx acc er).ts = acc.ts ∧
      (slotStep ctx acc er).used = slotKey ctx er :: acc.used) := by
  unfold slotStep
  split <;> rename_i hmem
  · exact ⟨fun _ => ⟨rfl, rfl⟩, fun hn => absurd hmem hn⟩
  · exact ⟨fun hm => absurd hm hmem, fun _ => ⟨rfl, rfl⟩⟩

theorem costStep_wasted_nonneg {ctx : Ctx} {m : ℤ} {acc a' : CostAcc}
    {er : ExamId × RoomId} (h : costStep ctx m acc er = some a')
    (hcap : 0 ≤ ctx.room_capacity er.2) (hw : 0 ≤ acc.wasted) : 0 ≤ a'.wasted := by
  rw [costStep, Option.map_eq_some'] at h
  obtain ⟨a, ha, ha'⟩ := h
  have h1 := capStep_wasted_nonneg ha hcap hw
  have h2 := (typeStep_fields ctx a er).2.1
  have h3 := (slotStep_fields ctx (typeStep ctx a er) er).1
  rw [← ha', h3, h2]
  exact h1

theorem costStep_ts_used {ctx : Ctx} {m : ℤ} {acc a' : CostAcc}
    {er : ExamId × RoomId} (h : costStep ctx m acc er = some a') :
    (slotKey ctx er ∈ acc.used → a'.ts = acc.ts + 1 ∧ a'.used = acc.used) ∧
    (slotKey ctx er ∉ acc.used →
      a'.ts = acc.ts ∧ a'.used = slotKey ctx er :: acc.used) := by
  rw [costStep, Option.map_eq_some'] at h
  obtain ⟨a, ha, ha'⟩ := h
  obtain ⟨hts, _, hused⟩ := capStep_some_fields ha
  have hslot := slotStep_ts ctx (typeStep ctx a er) er
  have hbts : (typeStep ctx a er).ts = acc.ts := by
    rw [(typeStep_fields ctx a er).1, hts]
  have hbused : (typeStep ctx a er).used = acc.used := by
    rw [(typeStep_fields ctx a er).2.2.1, hused]
  rw [hbused, hbts, ha'] at hslot
  exact hslot

theorem foldOpt_invariant_mem {σ α : Type*} {f : σ → α → Option σ} (P : σ → Prop) :
    ∀ (l : List α) (s s' : σ),
      (∀ t a t', a ∈ l → f t a = some t' → P t → P t') →
      foldOpt f s l = some s' → P s → P s' := by
  intro l
  induction l with
  | nil =>
    intro s s' _ h hP
    simp only [foldOpt, Option.some.injEq] at h
    rwa [← h]
  | cons a l ih =>
    intro s s' hf h hP
    simp only [foldOpt, Option.bind_eq_some] at h
    obtain ⟨s1, hs1, hrest⟩ := h
    exact ih s1 s' (fun t b t' hb => hf t b t' (List.mem_cons_of_mem a hb)) hrest
      (hf s a s1 (List.mem_cons_self a l) hs1 hP)

/-! ## Cost-fold lemmas -/

theorem costFold_ts {ctx : Ctx} {m : ℤ} :
    ∀ (sched : Schedule) (acc a' : CostAcc),
      foldOpt (costStep ctx m) acc sched = some a' →
      a'.ts = acc.ts + dupCount acc.used (slotKeys ctx sched) := by
  intro sched
  induction sched with
  | nil =>
    intro acc a' h
    simp only [foldOpt, Option.some.injEq] at h
    rw [← h]
    simp [slotKeys, dupCount]
  | cons er rest ih =>
    intro acc a' h
    simp only [foldOpt, Option.bind_eq_some] at h
    obtain ⟨a1, h1, hrest⟩ := h
    have hspec := costStep_ts_used h1
    have hih := ih a1 a' hrest
    by_cases hmem : slotKey ctx er ∈ acc.used
    · obtain ⟨hts, hused⟩ := hspec.1 hmem
      rw [hih, hts, hused]
      simp only [slotKeys, List.map_cons, dupCount, if_pos hmem]
      omega
    · obtain ⟨hts, hused⟩ := hspec.2 hmem
      rw [hih, hts, hused]
      simp only [slotKeys, List.map_cons, dupCount, if_neg hmem]

theorem costFold_wasted_nonneg {ctx : Ctx} {m : ℤ} {sched : Schedule} {a' : CostAcc}
    (hcap : ∀ p ∈ sched, 0 ≤ ctx.room_capacity p.2)
    (h : costFold ctx m sched = some a') : 0 ≤ a'.wasted := by
  rw [costFold] at h
  exact foldOpt_invariant_mem (fun a => 0 ≤ a.wasted) sched ⟨0, 0, 0, 0, []⟩ a'
    (fun t p t' hp ht hPt => costStep_wasted_nonneg ht (hcap p hp) hPt) h (le_refl 0)

theorem calculate_cost_eq {ctx : Ctx} {sched : Schedule} {alpha beta gamma delta : ℚ}
    {m : ℤ} {cb : CostBreakdown}
    (h : calculate_cost ctx sched alpha beta gamma delta m = some cb) :
    ∃ a, costFold ctx m sched = some a ∧
      cb = ⟨alpha * a.cap + gamma * a.ts + delta * a.ty + beta * a.wasted,
        a.cap, a.ts, a.ty, a.wasted⟩ := by
  rw [calculate_cost, Option.map_eq_some'] at h
  obtain ⟨a, ha, hcb⟩ := h
  exact ⟨a, ha, hcb.symm⟩

theorem calculate_cost_nonneg {ctx : Ctx} {sched : Schedule} {alpha beta gamma delta : ℚ}
    {m : ℤ} {cb : CostBreakdown}
    (hα : 0 ≤ alpha) (hβ : 0 ≤ beta) (hγ : 0 ≤ gamma) (hδ : 0 ≤ delta)
    (hcap : ∀ p ∈ sched, 0 ≤ ctx.room_capacity p.2)
    (h : calculate_cost ctx sched alpha beta gamma delta m = some cb) : 0 ≤ cb.total := by
  obtain ⟨a, ha, rfl⟩ := calculate_cost_eq h
  have hw := costFold_wasted_nonneg hcap ha
  have c1 : (0 : ℚ) ≤ alpha * a.cap := mul_nonneg hα (Nat.cast_nonneg _)
  have c2 : (0 : ℚ) ≤ gamma * a.ts := mul_nonneg hγ (Nat.cast_nonneg _)
  have c3 : (0 : ℚ) ≤ delta * a.ty := mul_nonneg hδ (Nat.cast_nonneg _)
  have c4 : (0 : ℚ) ≤ beta * a.wasted := mul_nonneg hβ hw
  exact add_nonneg (add_nonneg (add_nonneg c1 c2) c3) c4

theorem capStep_total {ctx : Ctx} {m : ℤ} {acc : CostAcc} {er : ExamId × RoomId}
    (hcap : 0 < ctx.room_capacity er.2) : ∃ a, capStep ctx m acc er = some a := by
  unfold capStep
  split
  · exact ⟨_, rfl⟩
  · rw [if_neg (by omega : ¬ ctx.room_capacity er.2 = 0)]
    split
    · exact ⟨_, rfl⟩
    · exact ⟨_, rfl⟩

theorem costStep_total {ctx : Ctx} {m : ℤ} {acc : CostAcc} {er : ExamId × RoomId}
    (hcap : 0 < ctx.room_capacity er.2) : ∃ a', costStep ctx m acc er = some a' := by
  obtain ⟨a, ha⟩ := @capStep_total ctx m acc er hcap
  exact ⟨_, by rw [costStep, ha, Option.map_some']⟩

theorem costFold_total {ctx : Ctx} {m : ℤ} {sched : Schedule}
    (hcap : ∀ p ∈ sched, 0 < ctx.room_capacity p.2) :
    ∃ a', costFold ctx m sched = some a' := by
  obtain ⟨a', ha', _⟩ := foldOpt_total_mem (f := costStep ctx m) (fun _ => True) sched
    ⟨0, 0, 0, 0, []⟩
    (fun s p hp _ => by
      obtain ⟨s', hs'⟩ := @costStep_total ctx m s p (hcap p hp)
      exact ⟨s', hs', trivial⟩)
    trivial
  exact ⟨a', ha'⟩

theorem calculate_cost_total {ctx : Ctx} {sched : Schedule}
    {alpha beta gamma delta : ℚ} {m : ℤ}
    (hcap : ∀ p ∈ sched, 0 < ctx.room_capacity p.2) :
    ∃ cb, calculate_cost ctx sched alpha beta gamma delta m = some cb := by
  obtain ⟨a, ha⟩ := costFold_total (m := m) hcap
  exact ⟨_, by rw [calculate_cost, ha, Option.map_some']⟩

theorem fitness_eq_of_nonneg {ctx : Ctx} {sched : Schedule}
    {alpha beta gamma delta : ℚ} {m : ℤ} {cb : CostBreakdown}
    (h : calculate_cost ctx sched alpha beta gamma delta m = some cb)
    (hcb : 0 ≤ cb.total) :
    fitness ctx sched alpha beta gamma delta m = some (1 / (1 + cb.total)) := by
  rw [fitness, h, Option.some_bind, if_neg]
  intro h0
  have : (0 : ℚ) < 1 + cb.total := by linarith
  rw [h0] at this
  exact lt_irrefl 0 this

/-! ## Lemmas for the `fitness.py` / `abc_algorithm.py` variants -/

theorem costAcc_eq (l : List SRec) :
    ∀ v w : ℤ, AbcAlg.costAcc l (v, w) = (v + overflowSum l, w + surplusSum l) := by
  induction l with
  | nil => intro v w; simp [AbcAlg.costAcc, overflowSum, surplusSum]
  | cons s rest ih =>
    intro v w
    simp only [AbcAlg.costAcc]
    split
    · rename_i hlt
      rw [ih]
      have h1 : max (s.1 - s.2) 0 = s.1 - s.2 := max_eq_left (by omega)
      have h2 : max (s.2 - s.1) 0 = 0 := max_eq_right (by omega)
      simp only [overflowSum, surplusSum, List.map_cons, List.sum_cons, h1, h2,
        Prod.mk.injEq]
      omega
    · rename_i hge
      rw [ih]
      have h1 : max (s.1 - s.2) 0 = 0 := max_eq_right (by omega)
      have h2 : max (s.2 - s.1) 0 = s.2 - s.1 := max_eq_left (by omega)
      simp only [overflowSum, surplusSum, List.map_cons, List.sum_cons, h1, h2,
        Prod.mk.injEq]
      omega

theorem fitAcc_eq_costAcc (l : List SRec) :
    ∀ a : ℤ × ℤ, FitnessPy.fitAcc l a = AbcAlg.costAcc l a := by
  induction l with
  | nil => intro a; rfl
  | cons s rest ih =>
    intro a
    obtain ⟨v, w⟩ := a
    simp only [FitnessPy.fitAcc, AbcAlg.costAcc]
    split <;> exact ih _

theorem overflowSum_nonneg (l : List SRec) : 0 ≤ overflowSum l :=
  List.sum_nonneg fun x hx => by
    obtain ⟨p, _, rfl⟩ := List.mem_map.1 hx
    exact le_max_right _ 0

theorem surplusSum_nonneg (l : List SRec) : 0 ≤ surplusSum l :=
  List.sum_nonneg fun x hx => by
    obtain ⟨p, _, rfl⟩ := List.mem_map.1 hx
    exact le_max_right _ 0

/-! ## Random choice and dict lemmas -/

theorem pyChoice_mem {α : Type*} {l : List α} {r : ℕ} {a : α}
    (h : pyChoice l r = some a) : a ∈ l := by
  rw [pyChoice, List.get?_eq_some] at h
  obtain ⟨hlt, rfl⟩ := h
  exact List.get_mem l _ hlt

theorem pyChoice_total {α : Type*} {l : List α} (hne : l ≠ []) (r : ℕ) :
    ∃ a, pyChoice l r = some a := by
  have hlen : 0 < l.length := List.length_pos.2 hne
  exact ⟨_, List.get?_eq_get (Nat.mod_lt r hlen)⟩

theorem keysOf_dictSet_of_mem {d : Schedule} {k : ExamId} (v : RoomId)
    (h : k ∈ keysOf d) : keysOf (dictSet d k v) = keysOf d := by
  rw [dictSet, if_pos h, keysOf, keysOf, List.map_map]
  refine List.map_congr_left fun p _ => ?_
  by_cases hpk : p.1 = k
  · simp [Function.comp, if_pos hpk, hpk]
  · simp [Function.comp, if_neg hpk]

theorem keysOf_dictSet_of_not_mem {d : Schedule} {k : ExamId} (v : RoomId)
    (h : k ∉ keysOf d) : keysOf (dictSet d k v) = keysOf d ++ [k] := by
  rw [dictSet, if_neg h, keysOf, List.map_append]
  rfl

theorem lookup_map_update {k e : ExamId} {v : RoomId} (h : e ≠ k) :
    ∀ d : Schedule,
      dictLookup (d.map fun p => if p.1 = k then (k, v) else p) e = dictLookup d e := by
  intro d
  induction d with
  | nil => rfl
  | cons p ds ih =>
    rw [List.map_cons]
    by_cases hpk : p.1 = k
    · rw [if_pos hpk, dictLookup, dictLookup, if_neg (fun hc => h hc.symm),
        if_neg (fun hc : p.1 = e => h (hpk ▸ hc).symm)]
      exact ih
    · rw [if_neg hpk, dictLookup, dictLookup]
      by_cases hpe : p.1 = e
      · rw [if_pos hpe, if_pos hpe]
      · rw [if_neg hpe, if_neg hpe]
        exact ih

theorem lookup_append_single_ne {k e : ExamId} {v : RoomId} (h : e ≠ k) :
    ∀ d : Schedule, dictLookup (d ++ [(k, v)]) e = dictLookup d e := by
  intro d
  induction d with
  | nil =>
    simp only [List.nil_append, dictLookup, if_neg (fun hc : k = e => h hc.symm)]
  | cons p ds ih =>
    rw [List.cons_append, dictLookup, dictLookup]
    by_cases hpe : p.1 = e
    · rw [if_pos hpe, if_pos hpe]
    · rw [if_neg hpe, if_neg hpe]
      exact ih

theorem lookup_dictSet_ne {d : Schedule} {k e : ExamId} {v : RoomId} (h : e ≠ k) :
    dictLookup (dictSet d k v) e = dictLookup d e := by
  rw [dictSet]
  split
  · exact lookup_map_update h d
  · exact lookup_append_single_ne h d

/-! ## Solution generator lemmas -/

theorem genSolAux_keys {rooms : List RoomId} {o : Oracle} :
    ∀ (es : List ExamId) (d : Schedule) (k : ℕ) (s : Schedule) (k' : ℕ),
      (keysOf d ++ es).Nodup →
      genSolAux rooms o es d k = some (s, k') → keysOf s = keysOf d ++ es := by
  intro es
  induction es with
  | nil =>
    intro d k s k' _ h
    simp only [genSolAux, Option.some.injEq, Prod.mk.injEq] at h
    rw [← h.1]
    simp
  | cons e es ih =>
    intro d k s k' hnd h
    simp only [genSolAux, Option.bind_eq_some] at h
    obtain ⟨r, _, hrec⟩ := h
    have hmem : e ∉ keysOf d := by
      rw [List.nodup_append] at hnd
      exact fun hc => hnd.2.2 hc (List.mem_cons_self e es)
    have hkeys := keysOf_dictSet_of_not_mem r hmem
    have hnd' : (keysOf (dictSet d e r) ++ es).Nodup := by
      rw [hkeys, List.append_assoc, List.singleton_append]
      exact hnd
    rw [ih (dictSet d e r) (k + 1) s k' hnd' hrec, hkeys, List.append_assoc,
      List.singleton_append]

theorem generate_solution_keys {ctx : Ctx} {o : Oracle} {k : ℕ} {s : Schedule}
    {k' : ℕ} (hnd : ctx.exam_ids.Nodup)
    (h : generate_solution ctx o k = some (s, k')) : keysOf s = ctx.exam_ids := by
  have := genSolAux_keys ctx.exam_ids [] k s k' (by simpa [keysOf] using hnd) h
  simpa [keysOf] using this

theorem genSolAux_total {rooms : List RoomId} {o : Oracle} (hrm : rooms ≠ []) :
    ∀ (es : List ExamId) (d : Schedule) (k : ℕ),
      ∃ s k', genSolAux rooms o es d k = some (s, k') := by
  intro es
  induction es with
  | nil => intro d k; exact ⟨d, k, rfl⟩
  | cons e es ih =>
    intro d k
    obtain ⟨r, hr⟩ := pyChoice_total hrm (o.nat k)
    obtain ⟨s, k', hrec⟩ := ih (dictSet d e r) (k + 1)
    exact ⟨s, k', by simp only [genSolAux, hr, Option.some_bind]; exact hrec⟩

theorem generate_solution_total {ctx : Ctx} {o : Oracle} (hrm : ctx.room_ids ≠ [])
    (k : ℕ) : ∃ s k', generate_solution ctx o k = some (s, k') :=
  genSolAux_total hrm ctx.exam_ids [] k

theorem initFood_total {ctx : Ctx} {o : Oracle} (hrm : ctx.room_ids ≠ []) :
    ∀ (n k : ℕ), ∃ fs k', initFood ctx o n k = some (fs, k') ∧ fs.length = n := by
  intro n
  induction n with
  | zero => intro k; exact ⟨[], k, rfl, rfl⟩
  | succ n ih =>
    intro k
    obtain ⟨s, k1, hs⟩ := generate_solution_total (o := o) hrm k
    obtain ⟨fs, k', hfs, hlen⟩ := ih k1
    refine ⟨s :: fs, k', ?_, by simp [hlen]⟩
    simp only [initFood, hs, Option.some_bind, hfs, Option.map_some']

/-! ## Neighborhood operator lemmas -/

theorem generate_neighbor_shape {ctx : Ctx} {o : Oracle} {sol : Schedule} {k : ℕ}
    {res : Schedule × ℕ} (h : generate_neighbor ctx o sol k = some res) :
    ∃ exam ∈ ctx.exam_ids, ∃ room ∈ ctx.room_ids, res.1 = dictSet sol exam room := by
  simp only [generate_neighbor, Option.bind_eq_some] at h
  obtain ⟨exam, hexam, h⟩ := h
  have hexam' := pyChoice_mem hexam
  split at h
  · rw [Option.map_eq_some'] at h
    obtain ⟨room, hroom, hres⟩ := h
    exact ⟨exam, hexam', room, pyChoice_mem hroom, by rw [← hres]⟩
  · split at h <;> rw [Option.map_eq_some'] at h
    · obtain ⟨room, hroom, hres⟩ := h
      refine ⟨exam, hexam', room, ?_, by rw [← hres]⟩
      have := pyChoice_mem hroom
      exact (List.mem_filter.1 this).1
    · obtain ⟨room, hroom, hres⟩ := h
      exact ⟨exam, hexam', room, pyChoice_mem hroom, by rw [← hres]⟩

theorem generate_neighbor_total {ctx : Ctx} {o : Oracle} (sol : Schedule) (k : ℕ)
    (hex : ctx.exam_ids ≠ []) (hrm : ctx.room_ids ≠ []) :
    ∃ res, generate_neighbor ctx o sol k = some res := by
  obtain ⟨exam, hexam⟩ := pyChoice_total hex (o.nat k)
  rw [generate_neighbor, hexam, Option.some_bind]
  by_cases hcr : compatible_rooms ctx exam = []
  · rw [if_pos hcr]
    obtain ⟨room, hroom⟩ := pyChoice_total hrm (o.nat (k + 1))
    exact ⟨_, by rw [hroom, Option.map_some']⟩
  · rw [if_neg hcr]
    by_cases hc : o.coin (k + 1)
    · rw [if_pos hc]
      obtain ⟨room, hroom⟩ := pyChoice_total hcr (o.nat (k + 2))
      exact ⟨_, by rw [hroom, Option.map_some']⟩
    · rw [if_neg hc]
      obtain ⟨room, hroom⟩ := pyChoice_total hrm (o.nat (k + 2))
      exact ⟨_, by rw [hroom, Option.map_some']⟩

theorem generate_neighbor_keys {ctx : Ctx} {o : Oracle} {sol : Schedule} {k : ℕ}
    {res : Schedule × ℕ} (hkeys : keysOf sol = ctx.exam_ids)
    (h : generate_neighbor ctx o sol k = some res) : keysOf res.1 = ctx.exam_ids := by
  obtain ⟨exam, hex, room, _, hres⟩ := generate_neighbor_shape h
  rw [hres, keysOf_dictSet_of_mem room (by rw [hkeys]; exact hex), hkeys]

/-! ## Engine step lemmas -/

theorem employedStep_preserve {ctx : Ctx} {o : Oracle} {alpha beta gamma delta : ℚ}
    {m : ℤ} {st : ABCState} {i : ℕ} {st' : ABCState}
    (h : employedStep ctx o alpha beta gamma delta m st i = some st') :
    st'.best_solution = st.best_solution ∧ st'.best_cost = st.best_cost ∧
    st'.convergence = st.convergence ∧ st'.food.length = st.food.length ∧
    st'.trials.length = st.trials.length := by
  simp only [employedStep, Option.bind_eq_some] at h
  obtain ⟨sol, _, ck, _, fc, _, fs, _, h⟩ := h
  split at h
  · cases Option.some.inj h
    exact ⟨rfl, rfl, rfl, List.length_set .., List.length_set ..⟩
  · rw [Option.map_eq_some'] at h
    obtain ⟨t, _, h⟩ := h
    cases h
    exact ⟨rfl, rfl, rfl, rfl, List.length_set ..⟩

theorem employedStep_total {ctx : Ctx} {o : Oracle} {alpha beta gamma delta : ℚ}
    {m : ℤ} {st : ABCState} {i : ℕ}
    (hex : ctx.exam_ids ≠ []) (hrm : ctx.room_ids ≠ [])
    (hcap : ∀ r, 0 < ctx.room_capacity r)
    (hα : 0 ≤ alpha) (hβ : 0 ≤ beta) (hγ : 0 ≤ gamma) (hδ : 0 ≤ delta)
    (hFood : i < st.food.length) (hTrials : i < st.trials.length) :
    ∃ st', employedStep ctx o alpha beta gamma delta m st i = some st' := by
  have hsol := List.get?_eq_get hFood
  obtain ⟨ck, hck⟩ :=
    @generate_neighbor_total ctx o (st.food.get ⟨i, hFood⟩) st.k hex hrm
  obtain ⟨cb1, hcb1⟩ := @calculate_cost_total ctx ck.1 alpha beta gamma delta m
    (fun p _ => hcap p.2)
  obtain ⟨cb2, hcb2⟩ := @calculate_cost_total ctx (st.food.get ⟨i, hFood⟩)
    alpha beta gamma delta m (fun p _ => hcap p.2)
  have hfit1 := fitness_eq_of_nonneg hcb1
    (calculate_cost_nonneg hα hβ hγ hδ (fun p _ => (hcap p.2).le) hcb1)
  have hfit2 := fitness_eq_of_nonneg hcb2
    (calculate_cost_nonneg hα hβ hγ hδ (fun p _ => (hcap p.2).le) hcb2)
  rw [employedStep, hsol, Option.some_bind, hck, Option.some_bind, hfit1,
    Option.some_bind, hfit2, Option.some_bind]
  split
  · exact ⟨_, rfl⟩
  · rw [List.get?_eq_get hTrials, Option.map_some']
    exact ⟨_, rfl⟩

theorem rouletteIndex_lt {r : ℚ} :
    ∀ (fvals : List ℚ) (acc : ℚ) (i0 i : ℕ),
      rouletteIndex fvals r acc i0 = some i → i < i0 + fvals.length := by
  intro fvals
  induction fvals with
  | nil => intro acc i0 i h; exact absurd h (by simp [rouletteIndex])
  | cons f rest ih =>
    intro acc i0 i h
    rw [rouletteIndex] at h
    split at h
    · cases Option.some.inj h
      simp only [List.length_cons]
      omega
    · have := ih (acc + f) (i0 + 1) i h
      simp only [List.length_cons]
      omega

theorem fitnessValues_length {ctx : Ctx} {alpha beta gamma delta : ℚ} {m : ℤ} :
    ∀ {food : List Schedule} {fvals : List ℚ},
      fitnessValues ctx alpha beta gamma delta m food = some fvals →
      fvals.length = food.length := by
  intro food
  induction food with
  | nil =>
    intro fvals h
    cases Option.some.inj h
    rfl
  | cons sol rest ih =>
    intro fvals h
    simp only [fitnessValues, Option.bind_eq_some, Option.map_eq_some'] at h
    obtain ⟨f, _, fs, hfs, h⟩ := h
    cases h.symm
    simp only [List.length_cons, ih hfs]

theorem fitnessValues_total {ctx : Ctx} {alpha beta gamma delta : ℚ} {m : ℤ}
    (hcap : ∀ r, 0 < ctx.room_capacity r)
    (hα : 0 ≤ alpha) (hβ : 0 ≤ beta) (hγ : 0 ≤ gamma) (hδ : 0 ≤ delta) :
    ∀ food : List Schedule,
      ∃ fvals, fitnessValues ctx alpha beta gamma delta m food = some fvals := by
  intro food
  induction food with
  | nil => exact ⟨[], rfl⟩
  | cons sol rest ih =>
    obtain ⟨cb, hcb⟩ := @calculate_cost_total ctx sol alpha beta gamma delta m
      (fun p _ => hcap p.2)
    have hfit := fitness_eq_of_nonneg hcb
      (calculate_cost_nonneg hα hβ hγ hδ (fun p _ => (hcap p.2).le) hcb)
    obtain ⟨fvals, hfvals⟩ := ih
    exact ⟨_, by rw [fitnessValues, hfit, Option.some_bind, hfvals, Option.map_some']⟩

theorem onlookerTrial_preserve {ctx : Ctx} {o : Oracle} {alpha beta gamma delta : ℚ}
    {m : ℤ} {fvals : List ℚ} {st st' : ABCState}
    (h : onlookerTrial ctx o alpha beta gamma delta m fvals st = some st') :
    st'.best_solution = st.best_solution ∧ st'.best_cost = st.best_cost ∧
    st'.convergence = st.convergence ∧ st'.food.length = st.food.length ∧
    st'.trials.length = st.trials.length := by
  rw [onlookerTrial] at h
  split at h
  · cases Option.some.inj h
    exact ⟨rfl, rfl, rfl, rfl, rfl⟩
  · have hp := employedStep_preserve h
    exact hp

theorem onlookerTrial_total {ctx : Ctx} {o : Oracle} {alpha beta gamma delta : ℚ}
    {m : ℤ} {fvals : List ℚ} {st : ABCState}
    (hex : ctx.exam_ids ≠ []) (hrm : ctx.room_ids ≠ [])
    (hcap : ∀ r, 0 < ctx.room_capacity r)
    (hα : 0 ≤ alpha) (hβ : 0 ≤ beta) (hγ : 0 ≤ gamma) (hδ : 0 ≤ delta)
    (hlen : fvals.length ≤ st.food.length) (hlen2 : st.food.length = st.trials.length) :
    ∃ st', onlookerTrial ctx o alpha beta gamma delta m fvals st = some st' := by
  rw [onlookerTrial]
  split
  · exact ⟨_, rfl⟩
  · rename_i i hi
    have hlt := rouletteIndex_lt fvals 0 0 i hi
    rw [Nat.zero_add] at hlt
    exact employedStep_total hex hrm hcap hα hβ hγ hδ
      (lt_of_lt_of_le hlt hlen) (by rw [← hlen2]; exact lt_of_lt_of_le hlt hlen)

theorem scoutStep_preserve {ctx : Ctx} {o : Oracle} {limit : ℕ} {st : ABCState}
    {i : ℕ} {st' : ABCState} (h : scoutStep ctx o limit st i = some st') :
    st'.best_solution = st.best_solution ∧ st'.best_cost = st.best_cost ∧
    st'.convergence = st.convergence ∧ st'.food.length = st.food.length ∧
    st'.trials.length = st.trials.length := by
  simp only [scoutStep, Option.bind_eq_some] at h
  obtain ⟨t, _, h⟩ := h
  split at h
  · rw [Option.map_eq_some'] at h
    obtain ⟨sk, _, h⟩ := h
    cases h
    exact ⟨rfl, rfl, rfl, List.length_set .., List.length_set ..⟩
  · cases Option.some.inj h
    exact ⟨rfl, rfl, rfl, rfl, rfl⟩

theorem scoutStep_total {ctx : Ctx} {o : Oracle} {limit : ℕ} {st : ABCState} {i : ℕ}
    (hrm : ctx.room_ids ≠ []) (hTrials : i < st.trials.length) :
    ∃ st', scoutStep ctx o limit st i = some st' := by
  rw [scoutStep, List.get?_eq_get hTrials, Option.some_bind]
  split
  · obtain ⟨s, k', hs⟩ := generate_solution_total (o := o) hrm st.k
    exact ⟨_, by rw [hs, Option.map_some']⟩
  · exact ⟨_, rfl⟩

theorem bestStep_preserve {ctx : Ctx} {alpha beta gamma delta : ℚ} {m : ℤ}
    {st : ABCState} {sol : Schedule} {st' : ABCState}
    (h : bestStep ctx alpha beta gamma delta m st sol = some st') :
    st'.food = st.food ∧ st'.trials = st.trials ∧ st'.convergence = st.convergence ∧
    st'.k = st.k := by
  rw [bestStep, Option.map_eq_some'] at h
  obtain ⟨cb, _, h⟩ := h
  cases h
  split
  · exact ⟨rfl, rfl, rfl, rfl⟩
  · exact ⟨rfl, rfl, rfl, rfl⟩

theorem bestStep_total {ctx : Ctx} {alpha beta gamma delta : ℚ} {m : ℤ}
    {st : ABCState} {sol : Schedule} (hcap : ∀ r, 0 < ctx.room_capacity r) :
    ∃ st', bestStep ctx alpha beta gamma delta m st sol = some st' := by
  obtain ⟨cb, hcb⟩ := @calculate_cost_total ctx sol alpha beta gamma delta m
    (fun p _ => hcap p.2)
  exact ⟨_, by rw [bestStep, hcb, Option.map_some']⟩

/-! ## Phase-level lemmas -/

theorem view_eq {st st' : ABCState}
    (h : st'.best_solution = st.best_solution ∧ st'.best_cost = st.best_cost ∧
      st'.convergence = st.convergence ∧ st'.food.length = st.food.length ∧
      st'.trials.length = st.trials.length) :
    (st'.best_solution, st'.best_cost, st'.convergence, st'.food.length,
      st'.trials.length) =
    (st.best_solution, st.best_cost, st.convergence, st.food.length,
      st.trials.length) := by
  obtain ⟨h1, h2, h3, h4, h5⟩ := h
  rw [h1, h2, h3, h4, h5]

theorem employedPhase_preserve {ctx : Ctx} {o : Oracle} {alpha beta gamma delta : ℚ}
    {m : ℤ} {n : ℕ} {st st' : ABCState}
    (h : employedPhase ctx o alpha beta gamma delta m n st = some st') :
    st'.best_solution = st.best_solution ∧ st'.best_cost = st.best_cost ∧
    st'.convergence = st.convergence ∧ st'.food.length = st.food.length ∧
    st'.trials.length = st.trials.length := by
  rw [employedPhase] at h
  have := foldOpt_preserve
    (fun t : ABCState => (t.best_solution, t.best_cost, t.convergence,
      t.food.length, t.trials.length))
    (fun s a s' hs => view_eq (employedStep_preserve hs)) _ _ _ h
  simpa using this

theorem onlookerPhase_preserve {ctx : Ctx} {o : Oracle} {alpha beta gamma delta : ℚ}
    {m : ℤ} {n : ℕ} {st st' : ABCState}
    (h : onlookerPhase ctx o alpha beta gamma delta m n st = some st') :
    st'.best_solution = st.best_solution ∧ st'.best_cost = st.best_cost ∧
    st'.convergence = st.convergence ∧ st'.food.length = st.food.length ∧
    st'.trials.length = st.trials.length := by
  rw [onlookerPhase, Option.bind_eq_some] at h
  obtain ⟨fvals, _, h⟩ := h
  have := foldOpt_preserve
    (fun t : ABCState => (t.best_solution, t.best_cost, t.convergence,
      t.food.length, t.trials.length))
    (fun s a s' hs => view_eq (onlookerTrial_preserve hs)) _ _ _ h
  simpa using this

theorem scoutPhase_preserve {ctx : Ctx} {o : Oracle} {limit n : ℕ} {st st' : ABCState}
    (h : scoutPhase ctx o limit n st = some st') :
    st'.best_solution = st.best_solution ∧ st'.best_cost = st.best_cost ∧
    st'.convergence = st.convergence ∧ st'.food.length = st.food.length ∧
    st'.trials.length = st.trials.length := by
  rw [scoutPhase] at h
  have := foldOpt_preserve
    (fun t : ABCState => (t.best_solution, t.best_cost, t.convergence,
      t.food.length, t.trials.length))
    (fun s a s' hs => view_eq (scoutStep_preserve hs)) _ _ _ h
  simpa using this

theorem bestUpdate_preserve {ctx : Ctx} {alpha beta gamma delta : ℚ} {m : ℤ}
    {st st' : ABCState}
    (h : bestUpdate ctx alpha beta gamma delta m st = some st') :
    st'.food = st.food ∧ st'.trials = st.trials ∧ st'.convergence = st.convergence ∧
    st'.k = st.k := by
  rw [bestUpdate] at h
  have := foldOpt_preserve
    (fun t : ABCState => (t.food, t.trials, t.convergence, t.k))
    (fun s a s' hs => by
      obtain ⟨h1, h2, h3, h4⟩ := bestStep_preserve hs
      simp only [h1, h2, h3, h4]) _ _ _ h
  simpa using this

theorem recordConvergence_spec {ctx : Ctx} {st st' : ABCState}
    (h : recordConvergence ctx st = some st') :
    st'.best_solution = st.best_solution ∧ st'.best_cost = st.best_cost ∧
    st'.food = st.food ∧ st'.trials = st.trials ∧
    st'.convergence = st.convergence ++
      [WithTop.map (fun c => c / (ctx.numExams : ℚ)) st.best_cost] := by
  rw [recordConvergence] at h
  split at h
  · exact absurd h (by simp)
  · cases Option.some.inj h
    exact ⟨rfl, rfl, rfl, rfl, rfl⟩

theorem employedPhase_total {ctx : Ctx} {o : Oracle} {alpha beta gamma delta : ℚ}
    {m : ℤ} {n : ℕ} {st : ABCState}
    (hex : ctx.exam_ids ≠ []) (hrm : ctx.room_ids ≠ [])
    (hcap : ∀ r, 0 < ctx.room_capacity r)
    (hα : 0 ≤ alpha) (hβ : 0 ≤ beta) (hγ : 0 ≤ gamma) (hδ : 0 ≤ delta)
    (hP : st.food.length = n ∧ st.trials.length = n) :
    ∃ st', employedPhase ctx o alpha beta gamma delta m n st = some st' ∧
      st'.food.length = n ∧ st'.trials.length = n := by
  rw [employedPhase]
  refine foldOpt_total_mem
    (fun t : ABCState => t.food.length = n ∧ t.trials.length = n) (List.range n) st
    ?_ hP
  intro t a ha hPt
  have halt : a < n := List.mem_range.1 ha
  obtain ⟨t', ht'⟩ := employedStep_total (o := o) (m := m) (i := a) hex hrm hcap
    hα hβ hγ hδ (by rw [hPt.1]; exact halt) (by rw [hPt.2]; exact halt)
  have hpres := employedStep_preserve ht'
  exact ⟨t', ht', by rw [hpres.2.2.2.1, hPt.1], by rw [hpres.2.2.2.2, hPt.2]⟩

theorem onlookerPhase_total {ctx : Ctx} {o : Oracle} {alpha beta gamma delta : ℚ}
    {m : ℤ} {n : ℕ} {st : ABCState}
    (hex : ctx.exam_ids ≠ []) (hrm : ctx.room_ids ≠ [])
    (hcap : ∀ r, 0 < ctx.room_capacity r)
    (hα : 0 ≤ alpha) (hβ : 0 ≤ beta) (hγ : 0 ≤ gamma) (hδ : 0 ≤ delta)
    (hP : st.food.length = n ∧ st.trials.length = n) :
    ∃ st', onlookerPhase ctx o alpha beta gamma delta m n st = some st' ∧
      st'.food.length = n ∧ st'.trials.length = n := by
  obtain ⟨fvals, hfvals⟩ :=
    fitnessValues_total (m := m) hcap hα hβ hγ hδ st.food
  have hflen : fvals.length = n := by
    rw [fitnessValues_length hfvals, hP.1]
  rw [onlookerPhase, hfvals, Option.some_bind]
  refine foldOpt_total_mem
    (fun t : ABCState => t.food.length = n ∧ t.trials.length = n) (List.range n) st
    ?_ hP
  intro t a _ hPt
  obtain ⟨t', ht'⟩ := onlookerTrial_total (o := o) (m := m) hex hrm hcap hα hβ hγ hδ
    (by rw [hflen, hPt.1]) (by rw [hPt.1, hPt.2])
  have hpres := onlookerTrial_preserve ht'
  exact ⟨t', ht', by rw [hpres.2.2.2.1, hPt.1], by rw [hpres.2.2.2.2, hPt.2]⟩

theorem scoutPhase_total {ctx : Ctx} {o : Oracle} {limit n : ℕ} {st : ABCState}
    (hrm : ctx.room_ids ≠ [])
    (hP : st.food.length = n ∧ st.trials.length = n) :
    ∃ st', scoutPhase ctx o limit n st = some st' ∧
      st'.food.length = n ∧ st'.trials.length = n := by
  rw [scoutPhase]
  refine foldOpt_total_mem
    (fun t : ABCState => t.food.length = n ∧ t.trials.length = n) (List.range n) st
    ?_ hP
  intro t a ha hPt
  have halt : a < n := List.mem_range.1 ha
  obtain ⟨t', ht'⟩ := @scoutStep_total ctx o limit t a hrm
    (by rw [hPt.2]; exact halt)
  have hpres := scoutStep_preserve ht'
  exact ⟨t', ht', by rw [hpres.2.2.2.1, hPt.1], by rw [hpres.2.2.2.2, hPt.2]⟩

theorem bestUpdate_total {ctx : Ctx} {alpha beta gamma delta : ℚ} {m : ℤ}
    {st : ABCState} (hcap : ∀ r, 0 < ctx.room_capacity r) :
    ∃ st', bestUpdate ctx alpha beta gamma delta m st = some st' := by
  rw [bestUpdate]
  obtain ⟨st', h, _⟩ := foldOpt_total_mem (fun _ : ABCState => True) st.food st
    (fun t sol _ _ => by
      obtain ⟨t', ht'⟩ := @bestStep_total ctx alpha beta gamma delta m t sol hcap
      exact ⟨t', ht', trivial⟩) trivial
  exact ⟨st', h⟩

theorem runCycle_total {ctx : Ctx} {o : Oracle} {alpha beta gamma delta : ℚ}
    {m : ℤ} {limit n : ℕ} {st : ABCState}
    (hex : ctx.exam_ids ≠ []) (hrm : ctx.room_ids ≠ [])
    (hcap : ∀ r, 0 < ctx.room_capacity r)
    (hα : 0 ≤ alpha) (hβ : 0 ≤ beta) (hγ : 0 ≤ gamma) (hδ : 0 ≤ delta)
    (hP : st.food.length = n ∧ st.trials.length = n) :
    ∃ st', runCycle ctx o alpha beta gamma delta m limit n st = some st' ∧
      st'.food.length = n ∧ st'.trials.length = n := by
  obtain ⟨st1, h1, hP1⟩ := employedPhase_total (o := o) (m := m) hex hrm hcap
    hα hβ hγ hδ hP
  obtain ⟨st2, h2, hP2⟩ := onlookerPhase_total (o := o) (m := m) hex hrm hcap
    hα hβ hγ hδ hP1
  obtain ⟨st3, h3, hP3⟩ := @scoutPhase_total ctx o limit n st2 hrm hP2
  obtain ⟨st4, h4⟩ := @bestUpdate_total ctx alpha beta gamma delta m st3 hcap
  have hP4 : st4.food.length = n ∧ st4.trials.length = n := by
    obtain ⟨hf, ht, _, _⟩ := bestUpdate_preserve h4
    exact ⟨by rw [hf]; exact hP3.1, by rw [ht]; exact hP3.2⟩
  have hne : ¬ ctx.numExams = 0 := by
    rw [Ctx.numExams]
    exact fun hc => hex (List.length_eq_zero.1 hc)
  have hrec : recordConvergence ctx st4 = some { st4 with
      convergence := st4.convergence ++
        [WithTop.map (fun c => c / (ctx.numExams : ℚ)) st4.best_cost] } := by
    rw [recordConvergence, if_neg hne]
  refine ⟨{ st4 with convergence := st4.convergence ++
      [WithTop.map (fun c => c / (ctx.numExams : ℚ)) st4.best_cost] },
    ?_, hP4.1, hP4.2⟩
  rw [runCycle, h1, Option.some_bind, h2, Option.some_bind, h3, Option.some_bind,
    h4, Option.some_bind, hrec]

theorem runCycles_total {ctx : Ctx} {o : Oracle} {alpha beta gamma delta : ℚ}
    {m : ℤ} {limit n : ℕ}
    (hex : ctx.exam_ids ≠ []) (hrm : ctx.room_ids ≠ [])
    (hcap : ∀ r, 0 < ctx.room_capacity r)
    (hα : 0 ≤ alpha) (hβ : 0 ≤ beta) (hγ : 0 ≤ gamma) (hδ : 0 ≤ delta) :
    ∀ (mc : ℕ) (st : ABCState), st.food.length = n ∧ st.trials.length = n →
      ∃ st', runCycles ctx o alpha beta gamma delta m limit n mc st = some st' ∧
        st'.food.length = n ∧ st'.trials.length = n := by
  intro mc
  induction mc with
  | zero => intro st hP; exact ⟨st, rfl, hP⟩
  | succ c ih =>
    intro st hP
    obtain ⟨st1, h1, hP1⟩ := @runCycle_total ctx o alpha beta gamma delta m
      limit n st hex hrm hcap hα hβ hγ hδ hP
    obtain ⟨st', h', hP'⟩ := ih st1 hP1
    exact ⟨st', by rw [runCycles, h1, Option.some_bind]; exact h', hP'⟩

theorem artificial_bee_colony_total {ctx : Ctx} {o : Oracle}
    {alpha beta gamma delta : ℚ} {m : ℤ} (n mc limit : ℕ)
    (hex : ctx.exam_ids ≠ []) (hrm : ctx.room_ids ≠ [])
    (hcap : ∀ r, 0 < ctx.room_capacity r)
    (hα : 0 ≤ alpha) (hβ : 0 ≤ beta) (hγ : 0 ≤ gamma) (hδ : 0 ≤ delta) :
    ∃ res, artificial_bee_colony ctx o n mc limit alpha beta gamma delta m =
      some res := by
  obtain ⟨fs, k', hinit, hlen⟩ := initFood_total (o := o) hrm n 0
  obtain ⟨st', hrun, _⟩ := @runCycles_total ctx o alpha beta gamma delta m
    limit n hex hrm hcap hα hβ hγ hδ mc ⟨fs, List.replicate n 0, none, ⊤, [], k'⟩
    ⟨hlen, List.length_replicate ..⟩
  exact ⟨_, by rw [artificial_bee_colony, hinit, Option.some_bind, hrun,
    Option.map_some']⟩

/-! ## Best-update and scout-phase behavior -/

theorem bestUpdate_fold_spec {ctx : Ctx} {alpha beta gamma delta : ℚ} {m : ℤ} :
    ∀ (l : List Schedule) (st st' : ABCState),
      foldOpt (bestStep ctx alpha beta gamma delta m) st l = some st' →
      st'.best_cost ≤ st.best_cost ∧
      ((st'.best_cost = st.best_cost ∧ st'.best_solution = st.best_solution) ∨
        (st'.best_cost < st.best_cost ∧ ∃ sol ∈ l, ∃ cb,
          calculate_cost ctx sol alpha beta gamma delta m = some cb ∧
          st'.best_cost = (cb.total : WithTop ℚ) ∧
          st'.best_solution = some sol)) := by
  intro l
  induction l with
  | nil =>
    intro st st' h
    simp only [foldOpt, Option.some.injEq] at h
    rw [← h]
    exact ⟨le_refl _, Or.inl ⟨rfl, rfl⟩⟩
  | cons sol rest ih =>
    intro st st' h
    simp only [foldOpt, Option.bind_eq_some] at h
    obtain ⟨st1, h1, hrest⟩ := h
    rw [bestStep, Option.map_eq_some'] at h1
    obtain ⟨cb, hcb, h1⟩ := h1
    have hrec := ih st1 st' hrest
    split at h1
    · rename_i hlt
      cases h1
      refine ⟨le_trans hrec.1 (le_of_lt hlt), Or.inr ⟨lt_of_le_of_lt hrec.1 hlt, ?_⟩⟩
      rcases hrec.2 with ⟨he, hs⟩ | ⟨hlt', sol', hmem, cb', hcb', he', hs'⟩
      · exact ⟨sol, List.mem_cons_self sol rest, cb, hcb, he, hs⟩
      · exact ⟨sol', List.mem_cons_of_mem sol hmem, cb', hcb', he', hs'⟩
    · cases h1
      refine ⟨hrec.1, ?_⟩
      rcases hrec.2 with ⟨he, hs⟩ | ⟨hlt', sol', hmem, cb', hcb', he', hs'⟩
      · exact Or.inl ⟨he, hs⟩
      · exact Or.inr ⟨hlt', sol', List.mem_cons_of_mem sol hmem, cb', hcb', he', hs'⟩

theorem scoutFold_spec {ctx : Ctx} {o : Oracle} {limit : ℕ} :
    ∀ (l : List ℕ) (st st' : ABCState), l.Nodup →
      st.food.length = st.trials.length →
      foldOpt (scoutStep ctx o limit) st l = some st' →
      (∀ i, i ∉ l → st'.trials.get? i = st.trials.get? i ∧
        st'.food.get? i = st.food.get? i) ∧
      (∀ i, i ∈ l → ∀ t, st.trials.get? i = some t →
        (limit ≤ t → st'.trials.get? i = some 0 ∧ ∃ k s k',
          generate_solution ctx o k = some (s, k') ∧ st'.food.get? i = some s) ∧
        (t < limit → st'.trials.get? i = some t ∧
          st'.food.get? i = st.food.get? i)) := by
  intro l
  induction l with
  | nil =>
    intro st st' _ _ h
    simp only [foldOpt, Option.some.injEq] at h
    rw [← h]
    exact ⟨fun i _ => ⟨rfl, rfl⟩, fun i hi => absurd hi (List.not_mem_nil i)⟩
  | cons a l ih =>
    intro st st' hnd hlen h
    simp only [foldOpt, Option.bind_eq_some] at h
    obtain ⟨st1, h1, hrest⟩ := h
    have hal : a ∉ l := (List.nodup_cons.1 hnd).1
    have hndl : l.Nodup := (List.nodup_cons.1 hnd).2
    simp only [scoutStep, Option.bind_eq_some] at h1
    obtain ⟨ta, hta, h1⟩ := h1
    have hlen1 : st1.food.length = st1.trials.length := by
      split at h1
      · rw [Option.map_eq_some'] at h1
        obtain ⟨sk, _, h1⟩ := h1
        cases h1
        simp only [List.length_set]
        exact hlen
      · cases Option.some.inj h1
        exact hlen
    have hrec := ih st1 st' hndl hlen1 hrest
    -- how one scout step at `a` changes the entries at positions other than `a`
    have hother : ∀ i, i ≠ a → st1.trials.get? i = st.trials.get? i ∧
        st1.food.get? i = st.food.get? i := by
      intro i hia
      split at h1
      · rw [Option.map_eq_some'] at h1
        obtain ⟨sk, _, h1⟩ := h1
        cases h1
        exact ⟨List.get?_set_ne _ _ (fun hc => hia hc.symm),
          List.get?_set_ne _ _ (fun hc => hia hc.symm)⟩
      · cases Option.some.inj h1
        exact ⟨rfl, rfl⟩
    refine ⟨?_, ?_⟩
    · intro i hi
      have hia : i ≠ a := fun hc => hi (hc ▸ List.mem_cons_self a l)
      have hil : i ∉ l := fun hc => hi (List.mem_cons_of_mem a hc)
      obtain ⟨ht1, hf1⟩ := hrec.1 i hil
      obtain ⟨ht2, hf2⟩ := hother i hia
      exact ⟨ht1.trans ht2, hf1.trans hf2⟩
    · intro i hi t hti
      rcases List.mem_cons.1 hi with rfl | hil
      · -- the step at position `a = i` itself
        obtain ⟨ht1, hf1⟩ := hrec.1 i hal
        cases Option.some.inj (hta.symm.trans hti)
        have hit : i < st.trials.length := by
          obtain ⟨hw, _⟩ := List.get?_eq_some.1 hti
          exact hw
        have hif : i < st.food.length := by
          rw [hlen]
          exact hit
        constructor
        · intro hge
          split at h1
          · rw [Option.map_eq_some'] at h1
            obtain ⟨sk, hsk, h1⟩ := h1
            cases h1
            refine ⟨?_, st.k, sk.1, sk.2, hsk, ?_⟩
            · rw [ht1, List.get?_set_eq, hti]
              rfl
            · rw [hf1, List.get?_set_eq, List.get?_eq_get hif]
              rfl
          · rename_i hcon
            exact absurd hge hcon
        · intro hlt
          split at h1
          · rename_i hcon
            omega
          · cases Option.some.inj h1
            exact ⟨ht1.trans hti, hf1⟩
      · obtain ⟨ht2, hf2⟩ := hother i (fun hc => hal (hc ▸ hil))
        have hspec := hrec.2 i hil t (ht2.trans hti)
        refine ⟨fun hge => hspec.1 hge, fun hlt => ?_⟩
        obtain ⟨hA, hB⟩ := hspec.2 hlt
        exact ⟨hA, hB.trans hf2⟩

/-! ## Cycle-level behavior -/

theorem runCycle_spec {ctx : Ctx} {o : Oracle} {alpha beta gamma delta : ℚ}
    {m : ℤ} {limit n : ℕ} {st st' : ABCState}
    (h : runCycle ctx o alpha beta gamma delta m limit n st = some st') :
    st'.convergence = st.convergence ++
      [WithTop.map (fun c => c / (ctx.numExams : ℚ)) st'.best_cost] ∧
    st'.best_cost ≤ st.best_cost ∧
    ((st'.best_cost = st.best_cost ∧ st'.best_solution = st.best_solution) ∨
      (st'.best_cost < st.best_cost ∧ ∃ sol ∈ st'.food, ∃ cb,
        calculate_cost ctx sol alpha beta gamma delta m = some cb ∧
        st'.best_cost = (cb.total : WithTop ℚ) ∧
        st'.best_solution = some sol)) := by
  rw [runCycle] at h
  simp only [Option.bind_eq_some] at h
  obtain ⟨st1, h1, st2, h2, st3, h3, st4, h4, h5⟩ := h
  have p1 := employedPhase_preserve h1
  have p2 := onlookerPhase_preserve h2
  have p3 := scoutPhase_preserve h3
  have p4 := bestUpdate_preserve h4
  have p5 := recordConvergence_spec h5
  rw [bestUpdate] at h4
  have spec4 := bestUpdate_fold_spec st3.food st3 st4 h4
  have hb3 : st3.best_cost = st.best_cost := by rw [p3.2.1, p2.2.1, p1.2.1]
  have hs3 : st3.best_solution = st.best_solution := by rw [p3.1, p2.1, p1.1]
  have hc3 : st3.convergence = st.convergence := by
    rw [p3.2.2.1, p2.2.2.1, p1.2.2.1]
  have hfood : st'.food = st3.food := by rw [p5.2.2.1, p4.1]
  refine ⟨?_, ?_, ?_⟩
  · rw [p5.2.2.2.2, p4.2.2.1, hc3, p5.2.1]
  · rw [p5.2.1, ← hb3]
    exact spec4.1
  · rcases spec4.2 with ⟨he, hs⟩ | ⟨hlt, sol, hmem, cb, hcb, he, hs⟩
    · exact Or.inl ⟨by rw [p5.2.1, he, hb3], by rw [p5.1, hs, hs3]⟩
    · refine Or.inr ⟨by rw [p5.2.1, ← hb3]; exact hlt, sol, ?_, cb, hcb,
        by rw [p5.2.1]; exact he, by rw [p5.1]; exact hs⟩
      rw [hfood]
      exact hmem

theorem runCycles_conv_length {ctx : Ctx} {o : Oracle} {alpha beta gamma delta : ℚ}
    {m : ℤ} {limit n : ℕ} :
    ∀ (mc : ℕ) (st st' : ABCState),
      runCycles ctx o alpha beta gamma delta m limit n mc st = some st' →
      st'.convergence.length = st.convergence.length + mc := by
  intro mc
  induction mc with
  | zero =>
    intro st st' h
    cases Option.some.inj h
    rfl
  | succ c ih =>
    intro st st' h
    rw [runCycles, Option.bind_eq_some] at h
    obtain ⟨st1, h1, hrest⟩ := h
    have hconv := (runCycle_spec h1).1
    have := ih st1 st' hrest
    rw [this, hconv, List.length_append, List.length_singleton]
    omega

/-! ## Degenerate-parameter runs (no precondition validation in the code) -/

theorem runCycles_empty_colony {ctx : Ctx} {o : Oracle}
    {alpha beta gamma delta : ℚ} {m : ℤ} {limit : ℕ}
    (hne : ctx.exam_ids ≠ []) :
    ∀ (mc : ℕ) (st : ABCState), st.food = [] → st.best_cost = ⊤ →
      runCycles ctx o alpha beta gamma delta m limit 0 mc st =
        some { st with convergence := st.convergence ++ List.replicate mc ⊤ } := by
  have hne0 : ¬ ctx.numExams = 0 := by
    rw [Ctx.numExams]
    exact fun hc => hne (List.length_eq_zero.1 hc)
  intro mc
  induction mc with
  | zero =>
    intro st _ _
    simp [runCycles]
  | succ c ih =>
    intro st hfood hbest
    have hcyc : runCycle ctx o alpha beta gamma delta m limit 0 st =
        some { st with convergence := st.convergence ++ [⊤] } := by
      rw [runCycle]
      rw [show employedPhase ctx o alpha beta gamma delta m 0 st = some st from rfl,
        Option.some_bind]
      have ho : onlookerPhase ctx o alpha beta gamma delta m 0 st = some st := by
        rw [onlookerPhase, hfood]
        rfl
      rw [ho, Option.some_bind]
      rw [show scoutPhase ctx o limit 0 st = some st from rfl, Option.some_bind]
      have hb : bestUpdate ctx alpha beta gamma delta m st = some st := by
        rw [bestUpdate, hfood]
        rfl
      rw [hb, Option.some_bind, recordConvergence, if_neg hne0, hbest,
        WithTop.map_top]
    rw [runCycles, hcyc, Option.some_bind,
      ih { st with convergence := st.convergence ++ [⊤] } hfood hbest]
    simp [List.replicate_succ, List.append_assoc]

theorem abc_empty_colony {ctx : Ctx} {o : Oracle} {alpha beta gamma delta : ℚ}
    {m : ℤ} {limit : ℕ} (hne : ctx.exam_ids ≠ []) (mc : ℕ) :
    artificial_bee_colony ctx o 0 mc limit alpha beta gamma delta m =
      some (none, ⊤, List.replicate mc ⊤) := by
  have hstep : artificial_bee_colony ctx o 0 mc limit alpha beta gamma delta m =
      (runCycles ctx o alpha beta gamma delta m limit 0 mc
        ⟨[], [], none, ⊤, [], 0⟩).map
        (fun st => (st.best_solution, st.best_cost, st.convergence)) := rfl
  rw [hstep, runCycles_empty_colony hne mc ⟨[], [], none, ⊤, [], 0⟩ rfl rfl,
    Option.map_some']
  simp

theorem abc_empty_rooms {ctx : Ctx} {o : Oracle} {alpha beta gamma delta : ℚ}
    {m : ℤ} {limit n mc : ℕ}
    (hrm : ctx.room_ids = []) (hex : ctx.exam_ids ≠ []) (hn : 0 < n) :
    artificial_bee_colony ctx o n mc limit alpha beta gamma delta m = none := by
  obtain ⟨n', rfl⟩ : ∃ n', n = n' + 1 := ⟨n - 1, by omega⟩
  have hgen : generate_solution ctx o 0 = none := by
    rw [generate_solution]
    obtain ⟨e, es, hes⟩ : ∃ e es, ctx.exam_ids = e :: es := by
      cases hce : ctx.exam_ids with
      | nil => exact absurd hce hex
      | cons e es => exact ⟨e, es, rfl⟩
    rw [hes, genSolAux, hrm]
    rfl
  rw [artificial_bee_colony]
  simp only [initFood, hgen, Option.none_bind]

theorem abc_zero_cycles {ctx : Ctx} {o : Oracle} {alpha beta gamma delta : ℚ}
    {m : ℤ} {limit n : ℕ} (hrm : ctx.room_ids ≠ []) :
    artificial_bee_colony ctx o n 0 limit alpha beta gamma delta m =
      some (none, ⊤, []) := by
  obtain ⟨fs, k', hinit, _⟩ := initFood_total (o := o) hrm n 0
  rw [artificial_bee_colony, hinit, Option.some_bind]
  rfl

/-! # Claim theorems -/

/-- C1 (counterexample): calling `artificial_bee_colony` with the non-positive
colony size 0 (on a valid one-exam/one-room data set) is not rejected: the
engine body runs its full cycle and returns a normal result, with one
convergence entry recorded for the executed cycle — no validation failure
occurs before or instead of the run. -/
theorem C1_counterexample :
    artificial_bee_colony ctx1 oracle0 0 1 5 100 5 100 100 5 =
      some (none, ⊤, [⊤]) := rfl

/-- C1 (amended): the code performs no precondition validation at all.  A call
with colony size 0 (non-positive) executes every cycle and returns normally
(best solution `None`, best cost infinity, one trace entry per cycle); a call
with cycle count 0 returns normally after initialization; an empty room list is
also not rejected up front — with a non-empty exam list and positive colony
size the failure surfaces as a runtime error (`random.choice` on an empty
sequence) inside `generate_solution` during engine initialization. -/
theorem C1_no_precondition_validation (ctx : Ctx) (o : Oracle)
    (alpha beta gamma delta : ℚ) (m : ℤ) (limit : ℕ) :
    (∀ mc, ctx.exam_ids ≠ [] →
      artificial_bee_colony ctx o 0 mc limit alpha beta gamma delta m =
        some (none, ⊤, List.replicate mc ⊤)) ∧
    (∀ n, ctx.room_ids ≠ [] →
      artificial_bee_colony ctx o n 0 limit alpha beta gamma delta m =
        some (none, ⊤, [])) ∧
    (∀ n mc, ctx.room_ids = [] → ctx.exam_ids ≠ [] → 0 < n →
      artificial_bee_colony ctx o n mc limit alpha beta gamma delta m = none) :=
  ⟨fun mc hne => abc_empty_colony hne mc,
   fun _ hrm => abc_zero_cycles hrm,
   fun _ _ hrm hex hn => abc_empty_rooms hrm hex hn⟩

/-- C1 (witness): the three amended behaviors at concrete inputs. -/
theorem C1_no_precondition_validation_witness :
    artificial_bee_colony ctx1 oracle0 0 2 5 100 5 100 100 5 =
      some (none, ⊤, [⊤, ⊤]) ∧
    artificial_bee_colony ctx1 oracle0 3 0 5 100 5 100 100 5 =
      some (none, ⊤, []) ∧
    artificial_bee_colony ctxE oracle0 1 1 5 100 5 100 100 5 = none := by
  refine ⟨?_, ?_, ?_⟩
  · have h := (C1_no_precondition_validation ctx1 oracle0 100 5 100 100 5 5).1 2
      (by decide)
    simpa using h
  · exact (C1_no_precondition_validation ctx1 oracle0 100 5 100 100 5 5).2.1 3
      (by decide)
  · exact (C1_no_precondition_validation ctxE oracle0 100 5 100 100 5 5).2.2 1 1
      rfl (by decide) (by decide)

/-- C2: for every schedule, every choice of non-negative weights and any safety
margin (under the data model's non-negative student counts and capacities),
whenever `calculate_cost` returns, its total is non-negative, `fitness` returns
exactly `1 / (1 + cost)` without dividing by zero, that value lies in `(0, 1]`,
and a zero cost gives fitness exactly 1. -/
theorem C2_cost_nonneg_fitness_bounds (ctx : Ctx) (sched : Schedule)
    (alpha beta gamma delta : ℚ) (m : ℤ) (cb : CostBreakdown)
    (hstud : ∀ e, 0 ≤ ctx.num_students e) (hcap : ∀ r, 0 ≤ ctx.room_capacity r)
    (hα : 0 ≤ alpha) (hβ : 0 ≤ beta) (hγ : 0 ≤ gamma) (hδ : 0 ≤ delta)
    (h : calculate_cost ctx sched alpha beta gamma delta m = some cb) :
    0 ≤ cb.total ∧
    fitness ctx sched alpha beta gamma delta m = some (1 / (1 + cb.total)) ∧
    0 < 1 / (1 + cb.total) ∧ 1 / (1 + cb.total) ≤ 1 ∧
    (cb.total = 0 → fitness ctx sched alpha beta gamma delta m = some 1) := by
  have h0 := calculate_cost_nonneg hα hβ hγ hδ (fun p _ => hcap p.2) h
  have hpos : (0 : ℚ) < 1 + cb.total := by linarith
  refine ⟨h0, fitness_eq_of_nonneg h h0, one_div_pos.2 hpos, ?_, ?_⟩
  · rw [div_le_one hpos]
    linarith
  · intro h0'
    rw [fitness_eq_of_nonneg h h0, h0']
    norm_num

/-- C2 (witness): the bounds at a concrete one-exam schedule whose cost is
`5/2`. -/
theorem C2_witness :
    (0 : ℚ) ≤ 5 / 2 ∧
    fitness ctx1 [(0, 0)] 100 5 100 100 5 = some (1 / (1 + 5 / 2)) ∧
    (0 : ℚ) < 1 / (1 + 5 / 2) ∧ (1 : ℚ) / (1 + 5 / 2) ≤ 1 ∧
    ((5 : ℚ) / 2 = 0 → fitness ctx1 [(0, 0)] 100 5 100 100 5 = some 1) := by
  have h := C2_cost_nonneg_fitness_bounds ctx1 [(0, 0)] 100 5 100 100 5
    ⟨5 / 2, 0, 0, 0, 1 / 2⟩ (fun _ => by norm_num [ctx1]) (fun _ => by norm_num [ctx1])
    (by norm_num) (by norm_num) (by norm_num) (by norm_num)
    (by norm_num +decide [calculate_cost, costFold, foldOpt, costStep, capStep,
      typeStep, slotStep, slotKey, ctx1])
  exact h

/-- C3 (counterexample): under input the data model calls well formed — a
non-empty exam list, a non-empty room list, a non-negative student count (0)
and a non-negative room capacity (0) — `calculate_cost` raises: assigning the
0-student exam to the capacity-0 room reaches `empty_seats / capacity` with a
zero divisor (`ZeroDivisionError`), embedded as `none`. -/
theorem C3_counterexample :
    calculate_cost ctx3 [(0, 0)] 100 5 100 100 5 = none ∧
    ctx3.exam_ids = [0] ∧ ctx3.room_ids = [0] ∧
    ctx3.num_students 0 = 0 ∧ ctx3.room_capacity 0 = 0 :=
  ⟨rfl, rfl, rfl, rfl, rfl⟩

/-- C3 (amended): no operation of the engine raises under well-formed input
once every room capacity is positive (rather than merely non-negative): for
non-empty exam and room lists, positive capacities and non-negative weights,
`calculate_cost` returns on every schedule and `artificial_bee_colony` returns
a result for every colony size, cycle count and scout limit.  (With a
capacity-0 room the division `empty_seats / capacity` raises exactly when the
room is assigned an exam with `students ≤ capacity`, i.e. zero students.) -/
theorem C3_no_exceptions (ctx : Ctx) (o : Oracle) (alpha beta gamma delta : ℚ)
    (m : ℤ) (hex : ctx.exam_ids ≠ []) (hrm : ctx.room_ids ≠ [])
    (hcap : ∀ r, 0 < ctx.room_capacity r)
    (hα : 0 ≤ alpha) (hβ : 0 ≤ beta) (hγ : 0 ≤ gamma) (hδ : 0 ≤ delta) :
    (∀ sched : Schedule,
      ∃ cb, calculate_cost ctx sched alpha beta gamma delta m = some cb) ∧
    (∀ n mc limit, ∃ res,
      artificial_bee_colony ctx o n mc limit alpha beta gamma delta m =
        some res) :=
  ⟨fun _ => calculate_cost_total (fun p _ => hcap p.2),
   fun n mc limit => artificial_bee_colony_total n mc limit hex hrm hcap
     hα hβ hγ hδ⟩

/-- C3 (witness): totality at the concrete one-exam/one-room data set. -/
theorem C3_no_exceptions_witness :
    (∃ cb, calculate_cost ctx1 [(0, 0)] 100 5 100 100 5 = some cb) ∧
    (∃ res, artificial_bee_colony ctx1 oracle0 1 1 5 100 5 100 100 5 =
      some res) := by
  have h := C3_no_exceptions ctx1 oracle0 100 5 100 100 5 (by decide) (by decide)
    (fun _ => by norm_num [ctx1]) (by norm_num) (by norm_num) (by norm_num)
    (by norm_num)
  exact ⟨h.1 [(0, 0)], h.2 1 1 5⟩

/-- C4 (counterexample): `generate_neighbor` does not always reassign an exam
to a *different* room: with a single room, the redrawn room equals the current
one, the returned neighbor equals the input, and the number of exams whose room
changed is 0, not 1. -/
theorem C4_counterexample :
    generate_neighbor ctx1 oracle0 [(0, 0)] 0 = some ([(0, 0)], 3) ∧
    reassignedExams [(0, 0)] [(0, 0)] = [] :=
  ⟨rfl, rfl⟩

/-- C4 (amended): every successful `generate_neighbor` call returns a fresh
assignment obtained from the input by rebinding at most one exam (drawn from
the exam list) to a room drawn from the room list — possibly its current room,
in which case the neighbor equals the input — leaving every other exam's
mapping unchanged; the input itself is unchanged (the operator copies the dict
and is a pure function in this embedding). -/
theorem C4_neighbor_frame (ctx : Ctx) (o : Oracle) (sol : Schedule) (k : ℕ)
    (res : Schedule × ℕ) (h : generate_neighbor ctx o sol k = some res) :
    ∃ exam ∈ ctx.exam_ids, ∃ room ∈ ctx.room_ids,
      res.1 = dictSet sol exam room ∧
      ∀ e, e ≠ exam → dictLookup res.1 e = dictLookup sol e := by
  obtain ⟨exam, hex, room, hrm, hres⟩ := generate_neighbor_shape h
  exact ⟨exam, hex, room, hrm, hres,
    fun e he => by rw [hres]; exact lookup_dictSet_ne he⟩

/-- C4 (witness): the frame property at the concrete one-room instance. -/
theorem C4_neighbor_frame_witness :
    ∃ exam ∈ ctx1.exam_ids, ∃ room ∈ ctx1.room_ids,
      ([(0, 0)] : Schedule) = dictSet [(0, 0)] exam room ∧
      ∀ e, e ≠ exam → dictLookup [(0, 0)] e = dictLookup [(0, 0)] e :=
  C4_neighbor_frame ctx1 oracle0 [(0, 0)] 0 ([(0, 0)], 3) rfl

/-- C5: whenever `calculate_cost` returns, its room–timeslot conflict count
equals the schedule length minus the number of distinct `(room, day, time)`
keys — i.e. the first occurrence of each key in mapping scan order is free and
every subsequent occurrence adds exactly one conflict.  In particular, two
exams sharing one key yield exactly one conflict (the later one), never both
and never zero. -/
theorem C5_timeslot_conflict_count (ctx : Ctx) (sched : Schedule)
    (alpha beta gamma delta : ℚ) (m : ℤ) (cb : CostBreakdown)
    (h : calculate_cost ctx sched alpha beta gamma delta m = some cb) :
    cb.timeslot_conflicts + (slotKeys ctx sched).toFinset.card = sched.length := by
  obtain ⟨a, ha, rfl⟩ := calculate_cost_eq h
  rw [costFold] at ha
  have hts : a.ts = dupCount [] (slotKeys ctx sched) := by
    simpa using costFold_ts sched ⟨0, 0, 0, 0, []⟩ a ha
  have hcount := dupCount_add_card (slotKeys ctx sched) []
  simp only [List.nil_append, List.toFinset_nil, Finset.card_empty] at hcount
  have hlen : (slotKeys ctx sched).length = sched.length := List.length_map _ _
  show a.ts + (slotKeys ctx sched).toFinset.card = sched.length
  rw [hts, ← hlen]
  omega

/-- C5 (witness): two exams with identical `(day, time)` in the same room — the
conflict count is exactly 1 (2 entries, 1 distinct key). -/
theorem C5_witness :
    calculate_cost ctx1 [(0, 0), (1, 0)] 100 5 100 100 5 =
      some ⟨105, 0, 1, 0, 1⟩ ∧
    (1 : ℕ) + (slotKeys ctx1 [(0, 0), (1, 0)]).toFinset.card = 2 := by
  refine ⟨by norm_num +decide [calculate_cost, costFold, foldOpt, costStep,
    capStep, typeStep, slotStep, slotKey, ctx1], ?_⟩
  have h := C5_timeslot_conflict_count ctx1 [(0, 0), (1, 0)] 100 5 100 100 5
    ⟨105, 0, 1, 0, 1⟩ (by norm_num +decide [calculate_cost, costFold, foldOpt,
      costStep, capStep, typeStep, slotStep, slotKey, ctx1])
  exact h

/-- C6: within one cycle of `artificial_bee_colony` the best-solution record is
monotonic — the best cost never increases — and the record changes only when
some population member's cost is strictly lower than the current best, in which
case the new record is exactly that member and its cost. -/
theorem C6_best_record_monotonic (ctx : Ctx) (o : Oracle)
    (alpha beta gamma delta : ℚ) (m : ℤ) (limit n : ℕ) (st st' : ABCState)
    (h : runCycle ctx o alpha beta gamma delta m limit n st = some st') :
    st'.best_cost ≤ st.best_cost ∧
    ((st'.best_cost = st.best_cost ∧ st'.best_solution = st.best_solution) ∨
      (st'.best_cost < st.best_cost ∧ ∃ sol ∈ st'.food, ∃ cb,
        calculate_cost ctx sol alpha beta gamma delta m = some cb ∧
        st'.best_cost = (cb.total : WithTop ℚ) ∧
        st'.best_solution = some sol)) :=
  ⟨(runCycle_spec h).2.1, (runCycle_spec h).2.2⟩

set_option maxHeartbeats 1000000 in
/-- C6 (witness): one concrete cycle on a fresh one-member state lowers the
best cost from infinity to `5/2`. -/
theorem C6_witness :
    stA'.best_cost ≤ stA.best_cost ∧
    ((stA'.best_cost = stA.best_cost ∧ stA'.best_solution = stA.best_solution) ∨
      (stA'.best_cost < stA.best_cost ∧ ∃ sol ∈ stA'.food, ∃ cb,
        calculate_cost ctx1 sol 100 5 100 100 5 = some cb ∧
        stA'.best_cost = (cb.total : WithTop ℚ) ∧
        stA'.best_solution = some sol)) :=
  C6_best_record_monotonic ctx1 oracle0 100 5 100 100 5 5 1 stA stA'
    (by norm_num +decide [runCycle, employedPhase, onlookerPhase, scoutPhase,
      bestUpdate, recordConvergence, employedStep, onlookerTrial, scoutStep,
      bestStep, fitnessValues, rouletteIndex, fitness, calculate_cost, costFold,
      foldOpt, costStep, capStep, typeStep, slotStep, slotKey, generate_neighbor,
      generate_solution, genSolAux, compatible_rooms, pyChoice, dictSet, keysOf,
      Ctx.numExams, ctx1, oracle0, stA, stA', List.range_succ])

/-- C7: each cycle appends exactly one value — the current best cost divided by
the exam count — to the convergence trace (append-only), and every successful
run of `artificial_bee_colony` returns a trace of length exactly `max_cycles`. -/
theorem C7_convergence_trace (ctx : Ctx) (o : Oracle)
    (alpha beta gamma delta : ℚ) (m : ℤ) (limit n : ℕ) :
    (∀ st st', runCycle ctx o alpha beta gamma delta m limit n st = some st' →
      st'.convergence = st.convergence ++
        [WithTop.map (fun c => c / (ctx.numExams : ℚ)) st'.best_cost]) ∧
    (∀ cs mc sl res,
      artificial_bee_colony ctx o cs mc sl alpha beta gamma delta m = some res →
      res.2.2.length = mc) := by
  constructor
  · intro st st' h
    exact (runCycle_spec h).1
  · intro cs mc sl res h
    rw [artificial_bee_colony, Option.bind_eq_some] at h
    obtain ⟨fk, _, h⟩ := h
    rw [Option.map_eq_some'] at h
    obtain ⟨st', hrun, hres⟩ := h
    have hlen := runCycles_conv_length mc _ st' hrun
    rw [← hres]
    simpa using hlen

set_option maxHeartbeats 1000000 in
/-- C7 (witness): one cycle appends one entry; a one-cycle run returns a trace
of length one. -/
theorem C7_witness :
    stA'.convergence = stA.convergence ++
      [WithTop.map (fun c => c / (ctx1.numExams : ℚ)) stA'.best_cost] ∧
    ((some (some [(0, 0)], ((5/2 : ℚ) : WithTop ℚ), [((5/2 : ℚ) : WithTop ℚ)]) :
      Option (Option Schedule × WithTop ℚ × List (WithTop ℚ))) =
      artificial_bee_colony ctx1 oracle0 1 1 5 100 5 100 100 5) ∧
    ([((5/2 : ℚ) : WithTop ℚ)] : List (WithTop ℚ)).length = 1 := by
  have habc : artificial_bee_colony ctx1 oracle0 1 1 5 100 5 100 100 5 =
      some (some [(0, 0)], ((5/2 : ℚ) : WithTop ℚ), [((5/2 : ℚ) : WithTop ℚ)]) := by
    norm_num +decide [artificial_bee_colony, initFood, runCycles, runCycle,
      employedPhase, onlookerPhase, scoutPhase, bestUpdate,
      recordConvergence, employedStep, onlookerTrial, scoutStep, bestStep,
      fitnessValues, rouletteIndex, fitness, calculate_cost, costFold, foldOpt,
      costStep, capStep, typeStep, slotStep, slotKey, generate_neighbor,
      generate_solution, genSolAux, compatible_rooms, pyChoice, dictSet, keysOf,
      Ctx.numExams, ctx1, oracle0, List.range_succ]
  refine ⟨(C7_convergence_trace ctx1 oracle0 100 5 100 100 5 5 1).1 stA stA'
    (by norm_num +decide [runCycle, employedPhase, onlookerPhase, scoutPhase,
      bestUpdate, recordConvergence, employedStep, onlookerTrial, scoutStep,
      bestStep, fitnessValues, rouletteIndex, fitness, calculate_cost, costFold,
      foldOpt, costStep, capStep, typeStep, slotStep, slotKey, generate_neighbor,
      generate_solution, genSolAux, compatible_rooms, pyChoice, dictSet, keysOf,
      Ctx.numExams, ctx1, oracle0, stA, stA', List.range_succ]), habc.symm, ?_⟩
  exact (C7_convergence_trace ctx1 oracle0 100 5 100 100 5 5 1).2 1 1 5
    (some [(0, 0)], ((5/2 : ℚ) : WithTop ℚ), [((5/2 : ℚ) : WithTop ℚ)]) habc

/-- C8: in the scout phase, every member whose trial counter reaches or exceeds
the scout limit (the code's policy is `>=`, which covers the claim's strict
"exceeds") is regenerated from scratch by the solution generator with its
counter reset to 0; every member strictly below the limit is untouched; and no
member leaves the phase with a counter above the limit. -/
theorem C8_scout_regeneration (ctx : Ctx) (o : Oracle) (limit n : ℕ)
    (st st' : ABCState) (hflen : st.food.length = n) (htlen : st.trials.length = n)
    (h : scoutPhase ctx o limit n st = some st') :
    (∀ i t, st.trials.get? i = some t → limit ≤ t →
      st'.trials.get? i = some 0 ∧ ∃ k s k',
        generate_solution ctx o k = some (s, k') ∧ st'.food.get? i = some s) ∧
    (∀ i t, st.trials.get? i = some t → t < limit →
      st'.trials.get? i = some t ∧ st'.food.get? i = st.food.get? i) ∧
    (∀ i t', st'.trials.get? i = some t' → ¬ limit < t') := by
  have hpres := scoutPhase_preserve h
  rw [scoutPhase] at h
  have hspec := scoutFold_spec (List.range n) st st' (List.nodup_range n)
    (by rw [hflen, htlen]) h
  have hmem : ∀ i t, st.trials.get? i = some t → i ∈ List.range n := by
    intro i t hti
    obtain ⟨hlt, _⟩ := List.get?_eq_some.1 hti
    exact List.mem_range.2 (htlen ▸ hlt)
  refine ⟨?_, ?_, ?_⟩
  · intro i t hti hge
    exact (hspec.2 i (hmem i t hti) t hti).1 hge
  · intro i t hti hlt
    exact (hspec.2 i (hmem i t hti) t hti).2 hlt
  · intro i t' ht'
    have hlen' : st'.trials.length = n := by rw [hpres.2.2.2.2, htlen]
    obtain ⟨hlt', _⟩ := List.get?_eq_some.1 ht'
    have hltn : i < st.trials.length := by
      rw [htlen]
      rw [hlen'] at hlt'
      exact hlt'
    have hti := List.get?_eq_get hltn
    by_cases hge : limit ≤ st.trials.get ⟨i, hltn⟩
    · obtain ⟨hz, _⟩ := (hspec.2 i (hmem i _ hti) _ hti).1 hge
      rw [ht'] at hz
      cases Option.some.inj hz
      omega
    · obtain ⟨he, _⟩ := (hspec.2 i (hmem i _ hti) _ hti).2 (by omega)
      rw [ht'] at he
      cases Option.some.inj he
      omega

/-- C8 (witness): a member with counter 7 and scout limit 5 is regenerated with
counter 0. -/
theorem C8_witness :
    ([0] : List ℕ).get? 0 = some 0 ∧
    ∃ k s k', generate_solution ctx1 oracle0 k = some (s, k') ∧
      ([[(0, 0)]] : List Schedule).get? 0 = some s := by
  have h := (C8_scout_regeneration ctx1 oracle0 5 1 stB
    ⟨[[(0, 0)]], [0], none, ⊤, [], 1⟩ rfl rfl rfl).1 0 7 rfl (by omega)
  exact h

/-- C9: every assignment produced by `generate_solution` is total — its key
list is exactly the (duplicate-free, per the data model) exam-id list — and
`generate_neighbor` preserves totality: a neighbor of a total assignment has
exactly the same key set. -/
theorem C9_assignment_totality (ctx : Ctx) (o : Oracle)
    (hnd : ctx.exam_ids.Nodup) :
    (∀ k s k', generate_solution ctx o k = some (s, k') →
      keysOf s = ctx.exam_ids) ∧
    (∀ sol k res, keysOf sol = ctx.exam_ids →
      generate_neighbor ctx o sol k = some res → keysOf res.1 = ctx.exam_ids) :=
  ⟨fun _ _ _ h => generate_solution_keys hnd h,
   fun _ _ _ hk h => generate_neighbor_keys hk h⟩

/-- C9 (witness): totality of a concrete generated solution and its
neighbor. -/
theorem C9_witness :
    keysOf [(0, 0)] = ctx1.exam_ids ∧ keysOf [(0, 0)] = ctx1.exam_ids := by
  have h := C9_assignment_totality ctx1 oracle0 (by decide)
  exact ⟨h.1 0 [(0, 0)] 1 rfl,
    h.2 [(0, 0)] 0 ([(0, 0)], 3) (h.1 0 [(0, 0)] 1 rfl) rfl⟩

/-- C10: the two cost-model variants agree — `abc_algorithm.py`'s
`calculate_cost` is `50 · Σ overflow + 5 · Σ surplus seats`, `fitness.py`'s
`calculate_fitness` at its default weights `(50, 5)` equals the first component
of `abc_algorithm.py`'s `calculate_fitness`, and both equal
`1 / (1 + cost)`. -/
theorem C10_cost_variants_agree (s : List SRec) :
    AbcAlg.calculate_cost s = 50 * overflowSum s + 5 * surplusSum s ∧
    FitnessPy.calculate_fitness s 50 5 =
      some (1 / (1 + (AbcAlg.calculate_cost s : ℚ))) ∧
    AbcAlg.calculate_fitness s =
      some (1 / (1 + (AbcAlg.calculate_cost s : ℚ)), AbcAlg.calculate_cost s) := by
  have hacc := costAcc_eq s 0 0
  have hc : AbcAlg.calculate_cost s = 50 * overflowSum s + 5 * surplusSum s := by
    rw [AbcAlg.calculate_cost, hacc]
    dsimp only
    ring
  have hcost_nonneg : 0 ≤ AbcAlg.calculate_cost s := by
    have hov := overflowSum_nonneg s
    have hsu := surplusSum_nonneg s
    rw [hc]
    omega
  have hpos : (0 : ℚ) < 1 + (AbcAlg.calculate_cost s : ℚ) := by
    have hcq : (0 : ℚ) ≤ (AbcAlg.calculate_cost s : ℚ) := by
      exact_mod_cast hcost_nonneg
    linarith
  refine ⟨hc, ?_, ?_⟩
  · have heq : (50 : ℚ) * ((FitnessPy.fitAcc s (0, 0)).1 : ℚ) +
        5 * ((FitnessPy.fitAcc s (0, 0)).2 : ℚ) =
        (AbcAlg.calculate_cost s : ℚ) := by
      rw [fitAcc_eq_costAcc, AbcAlg.calculate_cost]
      push_cast
      ring
    rw [FitnessPy.calculate_fitness, heq, if_neg hpos.ne']
  · rw [AbcAlg.calculate_fitness, if_neg hpos.ne']

end ExamABC
